import Mathlib

/-!
Verification model of the `ros2_sdk` Python SDK (`src/ros2_sdk/ros2_sdk.py`).

The SDK exchanges msgpack-encoded message records over ZeroMQ PUSH/PULL
sockets.  This file embeds:

* the wire codec used by `_send_message` (`msgpack.packb(..., use_bin_type=True)`)
  and `_recv_loop` (`msgpack.Unpacker(raw=False)`); the codec itself is the
  third-party `msgpack` library, so it is modelled here from the msgpack
  specification and the `msgpack-python` packer's documented encoding choices,
  restricted to the value shapes the SDK exchanges (nil, bool, int, float64,
  str, bin, array, map);
* the SDK's connect/disconnect lifecycle, the dispatcher
  `_handle_incoming_message`, and the `send_*` command encoders, translated
  directly from the source.

Python values are modelled as follows: byte strings and UTF-8 text are lists
of byte values (`List Nat`, each `< 256`); floats are carried by their IEEE-754
binary64 bit pattern (`Nat < 2^64`) — they are only moved around as data, never
computed with; ints are `Int`.
-/

/-- A msgpack-encodable value, as handled by the SDK: Python `None`, `bool`,
`int`, `float`, `str` (as its UTF-8 bytes), `bytes`, `list`, and `dict`
(as an insertion-ordered key/value list, which is the order msgpack
serializes a Python dict in). -/
inductive Val : Type where
  | nil : Val
  | bool : Bool → Val
  | int : Int → Val
  | float : Nat → Val
  | str : List Nat → Val
  | bin : List Nat → Val
  | arr : List Val → Val
  | map : List (Val × Val) → Val

/-- Big-endian byte representation of `n` on `k` bytes (the multi-byte
integer fields of the msgpack format). -/
def beBytes : Nat → Nat → List Nat
  | 0, _ => []
  | k + 1, n => beBytes k (n / 256) ++ [n % 256]

/-- Big-endian value of a byte list. -/
def beVal (bs : List Nat) : Nat := bs.foldl (fun a b => 256 * a + b) 0

theorem length_beBytes (k n : Nat) : (beBytes k n).length = k := by
  induction k generalizing n with
  | zero => rfl
  | succ k ih => simp [beBytes, ih]

theorem beVal_append_one (bs : List Nat) (b : Nat) :
    beVal (bs ++ [b]) = 256 * beVal bs + b := by
  simp [beVal, List.foldl_append]

theorem beVal_beBytes (k n : Nat) (h : n < 256 ^ k) :
    beVal (beBytes k n) = n := by
  induction k generalizing n with
  | zero =>
    simp [beBytes, beVal]
    omega
  | succ k ih =>
    rw [beBytes, beVal_append_one, ih]
    · omega
    · have h2 : 256 ^ (k + 1) = 256 ^ k * 256 := by ring
      rw [h2] at h
      omega

/-- Header bytes the msgpack-python packer emits for a `str` of the given
byte length (fixstr / str8 / str16 / str32; `use_bin_type=True` mode). -/
def strHeader (len : Nat) : List Nat :=
  if len < 32 then [0xa0 + len]
  else if len < 256 then [0xd9, len]
  else if len < 65536 then 0xda :: beBytes 2 len
  else 0xdb :: beBytes 4 len

/-- Header bytes for a `bytes` object (bin8 / bin16 / bin32). -/
def binHeader (len : Nat) : List Nat :=
  if len < 256 then [0xc4, len]
  else if len < 65536 then 0xc5 :: beBytes 2 len
  else 0xc6 :: beBytes 4 len

/-- Header bytes for an array of the given length (fixarray / array16 /
array32). -/
def arrHeader (n : Nat) : List Nat :=
  if n < 16 then [0x90 + n]
  else if n < 65536 then 0xdc :: beBytes 2 n
  else 0xdd :: beBytes 4 n

/-- Header bytes for a map of the given entry count (fixmap / map16 /
map32). -/
def mapHeader (n : Nat) : List Nat :=
  if n < 16 then [0x80 + n]
  else if n < 65536 then 0xde :: beBytes 2 n
  else 0xdf :: beBytes 4 n

/-- Encoding of a Python int, with the msgpack-python packer's choice of the
smallest representation: positive/negative fixint, then uint8/16/32/64 for
non-negative values and int8/16/32/64 for negative ones. -/
def encInt (i : Int) : List Nat :=
  if 0 ≤ i then
    if i.toNat < 128 then [i.toNat]
    else if i.toNat < 256 then [0xcc, i.toNat]
    else if i.toNat < 65536 then 0xcd :: beBytes 2 i.toNat
    else if i.toNat < 4294967296 then 0xce :: beBytes 4 i.toNat
    else 0xcf :: beBytes 8 i.toNat
  else
    if -32 ≤ i then [(i + 256).toNat]
    else if -128 ≤ i then [0xd0, (i + 256).toNat]
    else if -32768 ≤ i then 0xd1 :: beBytes 2 (i + 65536).toNat
    else if -2147483648 ≤ i then 0xd2 :: beBytes 4 (i + 4294967296).toNat
    else 0xd3 :: beBytes 8 (i + 18446744073709551616).toNat

mutual
/-- `msgpack.packb(v, use_bin_type=True)`: the self-delimiting binary blob for
one value (modelled from the msgpack specification). -/
def encodeVal : Val → List Nat
  | .nil => [0xc0]
  | .bool false => [0xc2]
  | .bool true => [0xc3]
  | .int i => encInt i
  | .float b => 0xcb :: beBytes 8 b
  | .str s => strHeader s.length ++ s
  | .bin s => binHeader s.length ++ s
  | .arr vs => arrHeader vs.length ++ encodeList vs
  | .map kvs => mapHeader kvs.length ++ encodeKVs kvs
/-- Concatenation of the encodings of a list of values; this is also the byte
stream obtained by encoding several records back to back. -/
def encodeList : List Val → List Nat
  | [] => []
  | v :: vs => encodeVal v ++ encodeList vs
/-- Concatenation of the encodings of the entries of a map, key before
value. -/
def encodeKVs : List (Val × Val) → List Nat
  | [] => []
  | (k, v) :: kvs => encodeVal k ++ encodeVal v ++ encodeKVs kvs
end

mutual
/-- The values `msgpack.packb` accepts without raising: ints within the
64-bit signed/unsigned window, float bit patterns of 64 bits, byte values
below 256, and container/string lengths below `2^32`. -/
def validVal : Val → Bool
  | .nil => true
  | .bool _ => true
  | .int i => decide (-9223372036854775808 ≤ i) && decide (i < 18446744073709551616)
  | .float b => decide (b < 18446744073709551616)
  | .str s => decide (s.length < 4294967296) && s.all (fun c => c < 256)
  | .bin s => decide (s.length < 4294967296) && s.all (fun c => c < 256)
  | .arr vs => decide (vs.length < 4294967296) && validList vs
  | .map kvs => decide (kvs.length < 4294967296) && validKVs kvs
/-- All values of a list are packable. -/
def validList : List Val → Bool
  | [] => true
  | v :: vs => validVal v && validList vs
/-- All keys and values of a map are packable. -/
def validKVs : List (Val × Val) → Bool
  | [] => true
  | (k, v) :: kvs => validVal k && validVal v && validKVs kvs
end

mutual
/-- Fuel needed by the recursive-descent parser to process one value: one
unit per parser call. -/
def nsize : Val → Nat
  | .arr vs => 1 + nsizeL vs
  | .map kvs => 1 + nsizeKV kvs
  | _ => 1
/-- Fuel needed to parse the elements of an array. -/
def nsizeL : List Val → Nat
  | [] => 1
  | v :: vs => 1 + nsize v + nsizeL vs
/-- Fuel needed to parse the entries of a map. -/
def nsizeKV : List (Val × Val) → Nat
  | [] => 1
  | (k, v) :: kvs => 1 + nsize k + nsize v + nsizeKV kvs
end

/-- Outcome of a parse attempt on a byte buffer: either the buffer does not
yet hold a complete value (`msgpack.Unpacker` keeps it buffered and waits for
more bytes), or it starts with bytes that are not a well-formed value (the
unpacker raises). -/
inductive PErr : Type where
  | incomplete : PErr
  | malformed : PErr
deriving DecidableEq

/-- Read exactly `k` bytes off the front of the buffer, or report that the
buffer is still incomplete. -/
def takeBs (k : Nat) (bs : List Nat) : Except PErr (List Nat × List Nat) :=
  if k ≤ bs.length then .ok (bs.take k, bs.drop k) else .error .incomplete

/-- Two's-complement reading of a `k`-byte big-endian unsigned value, for the
int8/int16/int32/int64 families. -/
def sInt (k : Nat) (n : Nat) : Int :=
  if n < 2 ^ (8 * k - 1) then (n : Int) else (n : Int) - 2 ^ (8 * k)

mutual
/-- One step of the msgpack recursive-descent decoder: parse one complete
value off the front of the buffer and return it with the remaining bytes.
`fuel` only bounds the recursion depth; running out of fuel reports
`incomplete` (the driver always supplies enough fuel).  Headers the SDK never
exchanges (ext families, float32, bytes 0xc1 and non-byte inputs) are
`malformed` here. -/
def parseVal : Nat → List Nat → Except PErr (Val × List Nat)
  | 0, _ => .error .incomplete
  | _ + 1, [] => .error .incomplete
  | fuel + 1, b :: bs =>
    if b < 0x80 then .ok (.int b, bs)
    else if b < 0x90 then do
      let (kvs, r) ← parseMap fuel (b - 0x80) bs
      .ok (.map kvs, r)
    else if b < 0xa0 then do
      let (vs, r) ← parseArr fuel (b - 0x90) bs
      .ok (.arr vs, r)
    else if b < 0xc0 then do
      let (s, r) ← takeBs (b - 0xa0) bs
      .ok (.str s, r)
    else if b = 0xc0 then .ok (.nil, bs)
    else if b = 0xc2 then .ok (.bool false, bs)
    else if b = 0xc3 then .ok (.bool true, bs)
    else if b = 0xc4 then do
      let (l, r) ← takeBs 1 bs
      let (s, r2) ← takeBs (beVal l) r
      .ok (.bin s, r2)
    else if b = 0xc5 then do
      let (l, r) ← takeBs 2 bs
      let (s, r2) ← takeBs (beVal l) r
      .ok (.bin s, r2)
    else if b = 0xc6 then do
      let (l, r) ← takeBs 4 bs
      let (s, r2) ← takeBs (beVal l) r
      .ok (.bin s, r2)
    else if b = 0xcb then do
      let (w, r) ← takeBs 8 bs
      .ok (.float (beVal w), r)
    else if b = 0xcc then do
      let (w, r) ← takeBs 1 bs
      .ok (.int (beVal w), r)
    else if b = 0xcd then do
      let (w, r) ← takeBs 2 bs
      .ok (.int (beVal w), r)
    else if b = 0xce then do
      let (w, r) ← takeBs 4 bs
      .ok (.int (beVal w), r)
    else if b = 0xcf then do
      let (w, r) ← takeBs 8 bs
      .ok (.int (beVal w), r)
    else if b = 0xd0 then do
      let (w, r) ← takeBs 1 bs
      .ok (.int (sInt 1 (beVal w)), r)
    else if b = 0xd1 then do
      let (w, r) ← takeBs 2 bs
      .ok (.int (sInt 2 (beVal w)), r)
    else if b = 0xd2 then do
      let (w, r) ← takeBs 4 bs
      .ok (.int (sInt 4 (beVal w)), r)
    else if b = 0xd3 then do
      let (w, r) ← takeBs 8 bs
      .ok (.int (sInt 8 (beVal w)), r)
    else if b = 0xd9 then do
      let (l, r) ← takeBs 1 bs
      let (s, r2) ← takeBs (beVal l) r
      .ok (.str s, r2)
    else if b = 0xda then do
      let (l, r) ← takeBs 2 bs
      let (s, r2) ← takeBs (beVal l) r
      .ok (.str s, r2)
    else if b = 0xdb then do
      let (l, r) ← takeBs 4 bs
      let (s, r2) ← takeBs (beVal l) r
      .ok (.str s, r2)
    else if b = 0xdc then do
      let (l, r) ← takeBs 2 bs
      let (vs, r2) ← parseArr fuel (beVal l) r
      .ok (.arr vs, r2)
    else if b = 0xdd then do
      let (l, r) ← takeBs 4 bs
      let (vs, r2) ← parseArr fuel (beVal l) r
      .ok (.arr vs, r2)
    else if b = 0xde then do
      let (l, r) ← takeBs 2 bs
      let (kvs, r2) ← parseMap fuel (beVal l) r
      .ok (.map kvs, r2)
    else if b = 0xdf then do
      let (l, r) ← takeBs 4 bs
      let (kvs, r2) ← parseMap fuel (beVal l) r
      .ok (.map kvs, r2)
    else if 0xe0 ≤ b ∧ b ≤ 0xff then .ok (.int ((b : Int) - 256), bs)
    else .error .malformed
/-- Parse `n` consecutive values (the elements of an array). -/
def parseArr : Nat → Nat → List Nat → Except PErr (List Val × List Nat)
  | 0, _, _ => .error .incomplete
  | _ + 1, 0, bs => .ok ([], bs)
  | fuel + 1, n + 1, bs => do
    let (v, r) ← parseVal fuel bs
    let (vs, r2) ← parseArr fuel n r
    .ok (v :: vs, r2)
/-- Parse `n` consecutive key/value pairs (the entries of a map). -/
def parseMap : Nat → Nat → List Nat → Except PErr (List (Val × Val) × List Nat)
  | 0, _, _ => .error .incomplete
  | _ + 1, 0, bs => .ok ([], bs)
  | fuel + 1, n + 1, bs => do
    let (k, r) ← parseVal fuel bs
    let (v, r2) ← parseVal fuel r
    let (kvs, r3) ← parseMap fuel n r2
    .ok ((k, v) :: kvs, r3)
end

/-- Iterating `msgpack.Unpacker`: extract complete values off the front of
the buffer until only a trailing incomplete fragment (or nothing) is left.
The outer fuel `k` bounds the number of extracted values; each extracted
value consumes at least one buffered byte, so `k = buf.length` never cuts the
loop short. -/
def drainGo : Nat → List Nat → List Val × List Nat
  | 0, buf => ([], buf)
  | k + 1, buf =>
    match parseVal (3 * buf.length + 1) buf with
    | .ok (v, r) =>
      let p := drainGo k r
      (v :: p.1, p.2)
    | .error _ => ([], buf)

/-- All complete values currently buffered, plus the leftover partial tail
(`for msg in unpacker: ...` after a `feed`). -/
def drain (buf : List Nat) : List Val × List Nat := drainGo buf.length buf

/-- The mutable state of a `msgpack.Unpacker`: the bytes fed but not yet
consumed by a completed parse. -/
structure Unpacker : Type where
  buf : List Nat

/-- `unpacker.feed(data)`: append the newly received chunk to the internal
buffer. -/
def Unpacker.feed (u : Unpacker) (data : List Nat) : Unpacker :=
  ⟨u.buf ++ data⟩

/-- Feed one chunk and iterate the unpacker to exhaustion, as one pass of the
`_recv_loop` body does. -/
def Unpacker.feedDrain (u : Unpacker) (data : List Nat) : List Val × Unpacker :=
  let p := drain (u.feed data).buf
  (p.1, ⟨p.2⟩)

/-- Run the receive loop's decode pipeline over a sequence of received
chunks, collecting every decoded record in order. -/
def runFeeds : Unpacker → List (List Nat) → List Val × Unpacker
  | u, [] => ([], u)
  | u, c :: cs =>
    let p := u.feedDrain c
    let q := runFeeds p.2 cs
    (p.1 ++ q.1, q.2)

/-! ### Basic facts about the encoding -/

theorem takeBs_exact (bs r : List Nat) (k : Nat) (h : bs.length = k) :
    takeBs k (bs ++ r) = .ok (bs, r) := by
  subst h
  simp [takeBs, List.take_append, List.drop_append]

theorem encInt_ne_nil (i : Int) : encInt i ≠ [] := by
  unfold encInt
  repeat' split
  all_goals simp

theorem encodeVal_ne_nil (v : Val) : encodeVal v ≠ [] := by
  cases v with
  | nil => simp [encodeVal]
  | bool b => cases b <;> simp [encodeVal]
  | int i => simpa [encodeVal] using encInt_ne_nil i
  | float b => simp [encodeVal]
  | str s =>
    simp only [encodeVal]
    unfold strHeader
    repeat' split
    all_goals simp
  | bin s =>
    simp only [encodeVal]
    unfold binHeader
    repeat' split
    all_goals simp
  | arr vs =>
    simp only [encodeVal]
    unfold arrHeader
    repeat' split
    all_goals simp
  | map kvs =>
    simp only [encodeVal]
    unfold mapHeader
    repeat' split
    all_goals simp

theorem length_encodeVal_pos (v : Val) : 0 < (encodeVal v).length :=
  List.length_pos.mpr (encodeVal_ne_nil v)

theorem encodeList_append (a b : List Val) :
    encodeList (a ++ b) = encodeList a ++ encodeList b := by
  induction a with
  | nil => simp [encodeList]
  | cons v vs ih => simp [encodeList, ih]

/-! ### Parsing back a canonical encoding -/

@[simp] theorem exBind_ok {α β : Type} (a : α) (f : α → Except PErr β) :
    (Except.ok a >>= f) = f a := rfl

@[simp] theorem exBind_error {α β : Type} (e : PErr) (f : α → Except PErr β) :
    ((Except.error e : Except PErr α) >>= f) = .error e := rfl

theorem parseVal_fixint (fuel : Nat) (n : Nat) (rest : List Nat) (h : n < 128) :
    parseVal (fuel + 1) (n :: rest) = .ok (.int n, rest) := by
  simp only [parseVal]
  rw [if_pos (by omega)]

theorem parseVal_u8 (fuel : Nat) (n : Nat) (rest : List Nat) (h : n < 256) :
    parseVal (fuel + 1) (0xcc :: n :: rest) = .ok (.int n, rest) := by
  have ht : takeBs 1 (n :: rest) = .ok ([n], rest) := by
    simpa using takeBs_exact [n] rest 1 rfl
  simp only [parseVal]
  norm_num
  simp [ht, beVal]

theorem parseVal_u16 (fuel : Nat) (n : Nat) (rest : List Nat) (h : n < 65536) :
    parseVal (fuel + 1) (0xcd :: (beBytes 2 n ++ rest)) = .ok (.int n, rest) := by
  have ht : takeBs 2 (beBytes 2 n ++ rest) = .ok (beBytes 2 n, rest) :=
    takeBs_exact _ rest 2 (length_beBytes 2 n)
  simp only [parseVal]
  norm_num
  simp [ht, beVal_beBytes 2 n (by norm_num [h])]

theorem parseVal_u32 (fuel : Nat) (n : Nat) (rest : List Nat) (h : n < 4294967296) :
    parseVal (fuel + 1) (0xce :: (beBytes 4 n ++ rest)) = .ok (.int n, rest) := by
  have ht : takeBs 4 (beBytes 4 n ++ rest) = .ok (beBytes 4 n, rest) :=
    takeBs_exact _ rest 4 (length_beBytes 4 n)
  simp only [parseVal]
  norm_num
  simp [ht, beVal_beBytes 4 n (by norm_num [h])]

theorem parseVal_u64 (fuel : Nat) (n : Nat) (rest : List Nat) (h : n < 18446744073709551616) :
    parseVal (fuel + 1) (0xcf :: (beBytes 8 n ++ rest)) = .ok (.int n, rest) := by
  have ht : takeBs 8 (beBytes 8 n ++ rest) = .ok (beBytes 8 n, rest) :=
    takeBs_exact _ rest 8 (length_beBytes 8 n)
  simp only [parseVal]
  norm_num
  simp [ht, beVal_beBytes 8 n (by norm_num [h])]

theorem parseVal_i8 (fuel : Nat) (n : Nat) (rest : List Nat) (h : n < 256) :
    parseVal (fuel + 1) (0xd0 :: n :: rest) = .ok (.int (sInt 1 n), rest) := by
  have ht : takeBs 1 (n :: rest) = .ok ([n], rest) := by
    simpa using takeBs_exact [n] rest 1 rfl
  simp only [parseVal]
  norm_num
  simp [ht, beVal]

theorem parseVal_i16 (fuel : Nat) (n : Nat) (rest : List Nat) (h : n < 65536) :
    parseVal (fuel + 1) (0xd1 :: (beBytes 2 n ++ rest)) = .ok (.int (sInt 2 n), rest) := by
  have ht : takeBs 2 (beBytes 2 n ++ rest) = .ok (beBytes 2 n, rest) :=
    takeBs_exact _ rest 2 (length_beBytes 2 n)
  simp only [parseVal]
  norm_num
  simp [ht, beVal_beBytes 2 n (by norm_num [h])]

theorem parseVal_i32 (fuel : Nat) (n : Nat) (rest : List Nat) (h : n < 4294967296) :
    parseVal (fuel + 1) (0xd2 :: (beBytes 4 n ++ rest)) = .ok (.int (sInt 4 n), rest) := by
  have ht : takeBs 4 (beBytes 4 n ++ rest) = .ok (beBytes 4 n, rest) :=
    takeBs_exact _ rest 4 (length_beBytes 4 n)
  simp only [parseVal]
  norm_num
  simp [ht, beVal_beBytes 4 n (by norm_num [h])]

theorem parseVal_i64 (fuel : Nat) (n : Nat) (rest : List Nat) (h : n < 18446744073709551616) :
    parseVal (fuel + 1) (0xd3 :: (beBytes 8 n ++ rest)) = .ok (.int (sInt 8 n), rest) := by
  have ht : takeBs 8 (beBytes 8 n ++ rest) = .ok (beBytes 8 n, rest) :=
    takeBs_exact _ rest 8 (length_beBytes 8 n)
  simp only [parseVal]
  norm_num
  simp [ht, beVal_beBytes 8 n (by norm_num [h])]

theorem parseVal_negfix (fuel : Nat) (n : Nat) (rest : List Nat)
    (h1 : 224 ≤ n) (h2 : n ≤ 255) :
    parseVal (fuel + 1) (n :: rest) = .ok (.int ((n : Int) - 256), rest) := by
  interval_cases n <;> rfl

theorem parseVal_nil (fuel : Nat) (rest : List Nat) :
    parseVal (fuel + 1) (0xc0 :: rest) = .ok (.nil, rest) := by
  simp only [parseVal]
  norm_num

theorem parseVal_false (fuel : Nat) (rest : List Nat) :
    parseVal (fuel + 1) (0xc2 :: rest) = .ok (.bool false, rest) := by
  simp only [parseVal]
  norm_num

theorem parseVal_true (fuel : Nat) (rest : List Nat) :
    parseVal (fuel + 1) (0xc3 :: rest) = .ok (.bool true, rest) := by
  simp only [parseVal]
  norm_num

theorem parseVal_float64 (fuel : Nat) (b : Nat) (rest : List Nat)
    (h : b < 18446744073709551616) :
    parseVal (fuel + 1) (0xcb :: (beBytes 8 b ++ rest)) = .ok (.float b, rest) := by
  have ht : takeBs 8 (beBytes 8 b ++ rest) = .ok (beBytes 8 b, rest) :=
    takeBs_exact _ rest 8 (length_beBytes 8 b)
  simp only [parseVal]
  norm_num
  simp [ht, beVal_beBytes 8 b (by norm_num [h])]

theorem parseVal_str (fuel : Nat) (s rest : List Nat) (h : s.length < 4294967296) :
    parseVal (fuel + 1) (strHeader s.length ++ (s ++ rest)) = .ok (.str s, rest) := by
  have hts : takeBs s.length (s ++ rest) = .ok (s, rest) := takeBs_exact s rest _ rfl
  unfold strHeader
  split
  · -- fixstr: header byte 0xa0 + len, len < 32
    rename_i hlen
    simp only [List.cons_append, List.nil_append, parseVal]
    rw [if_neg (by omega), if_neg (by omega), if_neg (by omega), if_pos (by omega)]
    simp [show 160 + s.length - 160 = s.length by omega, hts]
  · split
    · -- str8: 0xd9, len byte
      rename_i hlen1 hlen2
      have ht1 : takeBs 1 (s.length :: (s ++ rest)) = .ok ([s.length], s ++ rest) := by
        simpa using takeBs_exact [s.length] (s ++ rest) 1 rfl
      simp only [List.cons_append, List.nil_append, parseVal]
      norm_num
      simp [ht1, beVal, hts]
    · split
      · -- str16
        rename_i hlen1 hlen2 hlen3
        have ht2 : takeBs 2 (beBytes 2 s.length ++ (s ++ rest)) =
            .ok (beBytes 2 s.length, s ++ rest) :=
          takeBs_exact _ _ 2 (length_beBytes 2 s.length)
        simp only [List.cons_append, List.append_assoc, parseVal]
        norm_num
        simp [ht2, beVal_beBytes 2 s.length (by norm_num; omega), hts]
      · -- str32
        rename_i hlen1 hlen2 hlen3
        have ht4 : takeBs 4 (beBytes 4 s.length ++ (s ++ rest)) =
            .ok (beBytes 4 s.length, s ++ rest) :=
          takeBs_exact _ _ 4 (length_beBytes 4 s.length)
        simp only [List.cons_append, List.append_assoc, parseVal]
        norm_num
        simp [ht4, beVal_beBytes 4 s.length (by norm_num; omega), hts]

theorem parseVal_bin (fuel : Nat) (s rest : List Nat) (h : s.length < 4294967296) :
    parseVal (fuel + 1) (binHeader s.length ++ (s ++ rest)) = .ok (.bin s, rest) := by
  have hts : takeBs s.length (s ++ rest) = .ok (s, rest) := takeBs_exact s rest _ rfl
  unfold binHeader
  split
  · -- bin8: 0xc4, len byte
    rename_i hlen
    have ht1 : takeBs 1 (s.length :: (s ++ rest)) = .ok ([s.length], s ++ rest) := by
      simpa using takeBs_exact [s.length] (s ++ rest) 1 rfl
    simp only [List.cons_append, List.nil_append, parseVal]
    norm_num
    simp [ht1, beVal, hts]
  · split
    · -- bin16
      rename_i hlen1 hlen2
      have ht2 : takeBs 2 (beBytes 2 s.length ++ (s ++ rest)) =
          .ok (beBytes 2 s.length, s ++ rest) :=
        takeBs_exact _ _ 2 (length_beBytes 2 s.length)
      simp only [List.cons_append, List.append_assoc, parseVal]
      norm_num
      simp [ht2, beVal_beBytes 2 s.length (by norm_num; omega), hts]
    · -- bin32
      rename_i hlen1 hlen2
      have ht4 : takeBs 4 (beBytes 4 s.length ++ (s ++ rest)) =
          .ok (beBytes 4 s.length, s ++ rest) :=
        takeBs_exact _ _ 4 (length_beBytes 4 s.length)
      simp only [List.cons_append, List.append_assoc, parseVal]
      norm_num
      simp [ht4, beVal_beBytes 4 s.length (by norm_num; omega), hts]

theorem parseVal_arrHeader (fuel n : Nat) (tail : List Nat) (h : n < 4294967296) :
    parseVal (fuel + 1) (arrHeader n ++ tail) =
      (parseArr fuel n tail >>= fun p => .ok (.arr p.1, p.2)) := by
  unfold arrHeader
  split
  · -- fixarray
    rename_i hn
    simp only [List.cons_append, List.nil_append, parseVal]
    rw [if_neg (by omega), if_neg (by omega), if_pos (by omega)]
    have he : 144 + n - 144 = n := by omega
    rw [he]
  · split
    · -- array16
      rename_i hn1 hn2
      have ht2 : takeBs 2 (beBytes 2 n ++ tail) = .ok (beBytes 2 n, tail) :=
        takeBs_exact _ _ 2 (length_beBytes 2 n)
      simp only [List.cons_append, parseVal]
      norm_num
      rw [ht2]
      simp only [exBind_ok]
      rw [beVal_beBytes 2 n (by norm_num; omega)]
    · -- array32
      rename_i hn1 hn2
      have ht4 : takeBs 4 (beBytes 4 n ++ tail) = .ok (beBytes 4 n, tail) :=
        takeBs_exact _ _ 4 (length_beBytes 4 n)
      simp only [List.cons_append, parseVal]
      norm_num
      rw [ht4]
      simp only [exBind_ok]
      rw [beVal_beBytes 4 n (by norm_num; omega)]

theorem parseVal_mapHeader (fuel n : Nat) (tail : List Nat) (h : n < 4294967296) :
    parseVal (fuel + 1) (mapHeader n ++ tail) =
      (parseMap fuel n tail >>= fun p => .ok (.map p.1, p.2)) := by
  unfold mapHeader
  split
  · -- fixmap
    rename_i hn
    simp only [List.cons_append, List.nil_append, parseVal]
    rw [if_neg (by omega), if_pos (by omega)]
    have he : 128 + n - 128 = n := by omega
    rw [he]
  · split
    · -- map16
      rename_i hn1 hn2
      have ht2 : takeBs 2 (beBytes 2 n ++ tail) = .ok (beBytes 2 n, tail) :=
        takeBs_exact _ _ 2 (length_beBytes 2 n)
      simp only [List.cons_append, parseVal]
      norm_num
      rw [ht2]
      simp only [exBind_ok]
      rw [beVal_beBytes 2 n (by norm_num; omega)]
    · -- map32
      rename_i hn1 hn2
      have ht4 : takeBs 4 (beBytes 4 n ++ tail) = .ok (beBytes 4 n, tail) :=
        takeBs_exact _ _ 4 (length_beBytes 4 n)
      simp only [List.cons_append, parseVal]
      norm_num
      rw [ht4]
      simp only [exBind_ok]
      rw [beVal_beBytes 4 n (by norm_num; omega)]

theorem parseVal_encInt (fuel : Nat) (i : Int) (rest : List Nat)
    (h1 : -9223372036854775808 ≤ i) (h2 : i < 18446744073709551616) :
    parseVal (fuel + 1) (encInt i ++ rest) = .ok (.int i, rest) := by
  unfold encInt
  split
  · rename_i hpos
    split
    · rename_i hlt
      simp only [List.cons_append, List.nil_append]
      rw [parseVal_fixint fuel _ rest hlt]
      simp [Int.toNat_of_nonneg hpos]
    · split
      · rename_i hge hlt
        simp only [List.cons_append, List.nil_append]
        rw [parseVal_u8 fuel _ rest hlt]
        simp [Int.toNat_of_nonneg hpos]
      · split
        · rename_i hge1 hge2 hlt
          simp only [List.cons_append]
          rw [parseVal_u16 fuel _ rest hlt]
          simp [Int.toNat_of_nonneg hpos]
        · split
          · rename_i hge1 hge2 hge3 hlt
            simp only [List.cons_append]
            rw [parseVal_u32 fuel _ rest hlt]
            simp [Int.toNat_of_nonneg hpos]
          · rename_i hge1 hge2 hge3 hge4
            simp only [List.cons_append]
            rw [parseVal_u64 fuel _ rest (by omega)]
            simp [Int.toNat_of_nonneg hpos]
  · rename_i hneg
    split
    · rename_i hge
      simp only [List.cons_append, List.nil_append]
      rw [parseVal_negfix fuel _ rest (by omega) (by omega)]
      have h3 : (((i + 256).toNat : Int)) - 256 = i := by omega
      rw [h3]
    · split
      · rename_i hlt1 hge
        simp only [List.cons_append, List.nil_append]
        rw [parseVal_i8 fuel _ rest (by omega)]
        have h3 : sInt 1 (i + 256).toNat = i := by
          unfold sInt
          norm_num
          split <;> omega
        rw [h3]
      · split
        · rename_i hlt1 hlt2 hge
          simp only [List.cons_append]
          rw [parseVal_i16 fuel _ rest (by omega)]
          have h3 : sInt 2 (i + 65536).toNat = i := by
            unfold sInt
            norm_num
            split <;> omega
          rw [h3]
        · split
          · rename_i hlt1 hlt2 hlt3 hge
            simp only [List.cons_append]
            rw [parseVal_i32 fuel _ rest (by omega)]
            have h3 : sInt 4 (i + 4294967296).toNat = i := by
              unfold sInt
              norm_num
              split <;> omega
            rw [h3]
          · rename_i hlt1 hlt2 hlt3 hlt4
            simp only [List.cons_append]
            rw [parseVal_i64 fuel _ rest (by omega)]
            have h3 : sInt 8 (i + 18446744073709551616).toNat = i := by
              unfold sInt
              norm_num
              split <;> omega
            rw [h3]

theorem nsize_pos (v : Val) : 1 ≤ nsize v := by
  cases v <;> simp [nsize]

theorem nsizeL_pos (vs : List Val) : 1 ≤ nsizeL vs := by
  cases vs with
  | nil => simp [nsizeL]
  | cons v vs => simp [nsizeL]; omega

theorem nsizeKV_pos (kvs : List (Val × Val)) : 1 ≤ nsizeKV kvs := by
  cases kvs with
  | nil => simp [nsizeKV]
  | cons kv kvs => cases kv with | mk k v => simp [nsizeKV]; omega

/-- The decoder is a left inverse of the encoder: with enough fuel, parsing
the canonical encoding of any packable value (followed by arbitrary trailing
bytes) returns exactly that value and the trailing bytes. -/
theorem parse_encode (fuel : Nat) :
    (∀ v rest, validVal v = true → nsize v ≤ fuel →
       parseVal fuel (encodeVal v ++ rest) = .ok (v, rest)) ∧
    (∀ vs rest, validList vs = true → nsizeL vs ≤ fuel →
       parseArr fuel vs.length (encodeList vs ++ rest) = .ok (vs, rest)) ∧
    (∀ kvs rest, validKVs kvs = true → nsizeKV kvs ≤ fuel →
       parseMap fuel kvs.length (encodeKVs kvs ++ rest) = .ok (kvs, rest)) := by
  induction fuel with
  | zero =>
    refine ⟨?_, ?_, ?_⟩
    · intro v rest _ hsz
      have := nsize_pos v
      omega
    · intro vs rest _ hsz
      have := nsizeL_pos vs
      omega
    · intro kvs rest _ hsz
      have := nsizeKV_pos kvs
      omega
  | succ fuel ih =>
    obtain ⟨ihV, ihA, ihM⟩ := ih
    refine ⟨?_, ?_, ?_⟩
    · intro v rest hval hsz
      cases v with
      | nil =>
        simp only [encodeVal, List.singleton_append]
        exact parseVal_nil fuel rest
      | bool b =>
        cases b with
        | false =>
          simp only [encodeVal, List.singleton_append]
          exact parseVal_false fuel rest
        | true =>
          simp only [encodeVal, List.singleton_append]
          exact parseVal_true fuel rest
      | int i =>
        simp only [validVal, Bool.and_eq_true, decide_eq_true_eq] at hval
        simp only [encodeVal]
        exact parseVal_encInt fuel i rest hval.1 hval.2
      | float b =>
        simp only [validVal, decide_eq_true_eq] at hval
        simp only [encodeVal, List.cons_append]
        exact parseVal_float64 fuel b rest hval
      | str s =>
        simp only [validVal, Bool.and_eq_true, decide_eq_true_eq] at hval
        simp only [encodeVal, List.append_assoc]
        exact parseVal_str fuel s rest hval.1
      | bin s =>
        simp only [validVal, Bool.and_eq_true, decide_eq_true_eq] at hval
        simp only [encodeVal, List.append_assoc]
        exact parseVal_bin fuel s rest hval.1
      | arr vs =>
        simp only [validVal, Bool.and_eq_true, decide_eq_true_eq] at hval
        have hsz2 : nsizeL vs ≤ fuel := by
          simp only [nsize] at hsz
          omega
        simp only [encodeVal, List.append_assoc]
        rw [parseVal_arrHeader fuel vs.length (encodeList vs ++ rest) hval.1]
        rw [ihA vs rest hval.2 hsz2]
        simp
      | map kvs =>
        simp only [validVal, Bool.and_eq_true, decide_eq_true_eq] at hval
        have hsz2 : nsizeKV kvs ≤ fuel := by
          simp only [nsize] at hsz
          omega
        simp only [encodeVal, List.append_assoc]
        rw [parseVal_mapHeader fuel kvs.length (encodeKVs kvs ++ rest) hval.1]
        rw [ihM kvs rest hval.2 hsz2]
        simp
    · intro vs rest hval hsz
      cases vs with
      | nil =>
        simp [encodeList, parseArr]
      | cons v vs =>
        simp only [validList, Bool.and_eq_true] at hval
        have h1 : nsize v ≤ fuel := by
          have := nsizeL_pos vs
          simp only [nsizeL] at hsz
          omega
        have h2 : nsizeL vs ≤ fuel := by
          have := nsize_pos v
          simp only [nsizeL] at hsz
          omega
        simp only [encodeList, List.length_cons, List.append_assoc, parseArr]
        rw [ihV v (encodeList vs ++ rest) hval.1 h1]
        simp only [exBind_ok]
        rw [ihA vs rest hval.2 h2]
        simp
    · intro kvs rest hval hsz
      cases kvs with
      | nil =>
        simp [encodeKVs, parseMap]
      | cons kv kvs =>
        cases kv with
        | mk k v =>
          simp only [validKVs, Bool.and_eq_true] at hval
          have h1 : nsize k ≤ fuel := by
            have := nsize_pos v
            have := nsizeKV_pos kvs
            simp only [nsizeKV] at hsz
            omega
          have h2 : nsize v ≤ fuel := by
            have := nsize_pos k
            have := nsizeKV_pos kvs
            simp only [nsizeKV] at hsz
            omega
          have h3 : nsizeKV kvs ≤ fuel := by
            have := nsize_pos k
            have := nsize_pos v
            simp only [nsizeKV] at hsz
            omega
          simp only [encodeKVs, List.length_cons, List.append_assoc, parseMap]
          rw [ihV k (encodeVal v ++ (encodeKVs kvs ++ rest)) hval.1.1 h1]
          simp only [exBind_ok]
          rw [ihV v (encodeKVs kvs ++ rest) hval.1.2 h2]
          simp only [exBind_ok]
          rw [ihM kvs rest hval.2 h3]
          simp

/-- With arbitrary fuel, parsing a canonical encoding either succeeds with
the encoded value or runs out of fuel reporting `incomplete`; it never
misparses or reports `malformed`. -/
theorem parse_encode_weak (fuel : Nat) :
    (∀ v rest, validVal v = true →
       parseVal fuel (encodeVal v ++ rest) = .ok (v, rest) ∨
       parseVal fuel (encodeVal v ++ rest) = .error .incomplete) ∧
    (∀ vs rest, validList vs = true →
       parseArr fuel vs.length (encodeList vs ++ rest) = .ok (vs, rest) ∨
       parseArr fuel vs.length (encodeList vs ++ rest) = .error .incomplete) ∧
    (∀ kvs rest, validKVs kvs = true →
       parseMap fuel kvs.length (encodeKVs kvs ++ rest) = .ok (kvs, rest) ∨
       parseMap fuel kvs.length (encodeKVs kvs ++ rest) = .error .incomplete) := by
  induction fuel with
  | zero =>
    refine ⟨?_, ?_, ?_⟩
    · intro v rest _
      right
      rfl
    · intro vs rest _
      right
      rfl
    · intro kvs rest _
      right
      rfl
  | succ fuel ih =>
    obtain ⟨ihV, ihA, ihM⟩ := ih
    refine ⟨?_, ?_, ?_⟩
    · intro v rest hval
      cases v with
      | nil =>
        left
        simp only [encodeVal, List.singleton_append]
        exact parseVal_nil fuel rest
      | bool b =>
        left
        cases b with
        | false =>
          simp only [encodeVal, List.singleton_append]
          exact parseVal_false fuel rest
        | true =>
          simp only [encodeVal, List.singleton_append]
          exact parseVal_true fuel rest
      | int i =>
        left
        simp only [validVal, Bool.and_eq_true, decide_eq_true_eq] at hval
        simp only [encodeVal]
        exact parseVal_encInt fuel i rest hval.1 hval.2
      | float b =>
        left
        simp only [validVal, decide_eq_true_eq] at hval
        simp only [encodeVal, List.cons_append]
        exact parseVal_float64 fuel b rest hval
      | str s =>
        left
        simp only [validVal, Bool.and_eq_true, decide_eq_true_eq] at hval
        simp only [encodeVal, List.append_assoc]
        exact parseVal_str fuel s rest hval.1
      | bin s =>
        left
        simp only [validVal, Bool.and_eq_true, decide_eq_true_eq] at hval
        simp only [encodeVal, List.append_assoc]
        exact parseVal_bin fuel s rest hval.1
      | arr vs =>
        simp only [validVal, Bool.and_eq_true, decide_eq_true_eq] at hval
        simp only [encodeVal, List.append_assoc]
        rw [parseVal_arrHeader fuel vs.length (encodeList vs ++ rest) hval.1]
        rcases ihA vs rest hval.2 with hok | hinc
        · left
          rw [hok]
          simp
        · right
          rw [hinc]
          simp
      | map kvs =>
        simp only [validVal, Bool.and_eq_true, decide_eq_true_eq] at hval
        simp only [encodeVal, List.append_assoc]
        rw [parseVal_mapHeader fuel kvs.length (encodeKVs kvs ++ rest) hval.1]
        rcases ihM kvs rest hval.2 with hok | hinc
        · left
          rw [hok]
          simp
        · right
          rw [hinc]
          simp
    · intro vs rest hval
      cases vs with
      | nil =>
        left
        simp [encodeList, parseArr]
      | cons v vs =>
        simp only [validList, Bool.and_eq_true] at hval
        simp only [encodeList, List.length_cons, List.append_assoc, parseArr]
        rcases ihV v (encodeList vs ++ rest) hval.1 with hok | hinc
        · rw [hok]
          simp only [exBind_ok]
          rcases ihA vs rest hval.2 with hok2 | hinc2
          · left
            rw [hok2]
            simp
          · right
            rw [hinc2]
            simp
        · right
          rw [hinc]
          simp
    · intro kvs rest hval
      cases kvs with
      | nil =>
        left
        simp [encodeKVs, parseMap]
      | cons kv kvs =>
        cases kv with
        | mk k v =>
          simp only [validKVs, Bool.and_eq_true] at hval
          simp only [encodeKVs, List.length_cons, List.append_assoc, parseMap]
          rcases ihV k (encodeVal v ++ (encodeKVs kvs ++ rest)) hval.1.1 with hok | hinc
          · rw [hok]
            simp only [exBind_ok]
            rcases ihV v (encodeKVs kvs ++ rest) hval.1.2 with hok2 | hinc2
            · rw [hok2]
              simp only [exBind_ok]
              rcases ihM kvs rest hval.2 with hok3 | hinc3
              · left
                rw [hok3]
                simp
              · right
                rw [hinc3]
                simp
            · right
              rw [hinc2]
              simp
          · right
            rw [hinc]
            simp

/-! ### Prefixes of byte streams -/

/-- `isPre p q`: the byte list `p` is an initial segment of `q` (what a
stream transport may have delivered so far out of `q`). -/
def isPre (p q : List Nat) : Prop := ∃ t, p ++ t = q

theorem isPre_refl (q : List Nat) : isPre q q := ⟨[], by simp⟩

theorem isPre_nil (q : List Nat) : isPre [] q := ⟨q, rfl⟩

theorem isPre_nil_right (p : List Nat) (h : isPre p []) : p = [] := by
  obtain ⟨t, ht⟩ := h
  simpa using List.append_eq_nil.mp ht |>.1

theorem isPre_length (p q : List Nat) (h : isPre p q) : p.length ≤ q.length := by
  obtain ⟨t, ht⟩ := h
  subst ht
  simp

theorem isPre_eq_of_length (p q : List Nat) (h : isPre p q)
    (hl : q.length ≤ p.length) : p = q := by
  obtain ⟨t, ht⟩ := h
  have hlen := congrArg List.length ht
  simp only [List.length_append] at hlen
  have ht0 : t = [] := List.eq_nil_of_length_eq_zero (by omega)
  subst ht0
  simpa using ht

theorem isPre_length_lt (p q : List Nat) (h : isPre p q) (hne : p ≠ q) :
    p.length < q.length := by
  have h1 := isPre_length p q h
  rcases Nat.lt_or_ge p.length q.length with hlt | hge
  · exact hlt
  · exact absurd (isPre_eq_of_length p q h hge) hne

theorem isPre_cons_cases (p : List Nat) (x : Nat) (xs : List Nat)
    (h : isPre p (x :: xs)) : p = [] ∨ ∃ p2, p = x :: p2 ∧ isPre p2 xs := by
  obtain ⟨t, ht⟩ := h
  cases p with
  | nil => exact Or.inl rfl
  | cons y p2 =>
    right
    simp only [List.cons_append, List.cons.injEq] at ht
    exact ⟨p2, by rw [ht.1], ⟨t, ht.2⟩⟩

theorem isPre_split_of_length (a : List Nat) :
    ∀ p b, isPre p (a ++ b) → a.length ≤ p.length →
      ∃ p2, p = a ++ p2 ∧ isPre p2 b := by
  induction a with
  | nil =>
    intro p b h _
    exact ⟨p, by simp, h⟩
  | cons x a ih =>
    intro p b h hl
    cases p with
    | nil => simp at hl
    | cons y p2 =>
      rcases isPre_cons_cases (y :: p2) x (a ++ b) h with hnil | ⟨p3, heq, hp3⟩
      · exact absurd hnil (by simp)
      · simp only [List.cons.injEq] at heq
        obtain ⟨hy, hp⟩ := heq
        subst hy
        subst hp
        obtain ⟨p4, h4, h5⟩ := ih p2 b hp3 (by simp only [List.length_cons] at hl; omega)
        exact ⟨p4, by simp [h4], h5⟩

theorem isPre_append_short (a : List Nat) :
    ∀ p b, isPre p (a ++ b) → p.length ≤ a.length → isPre p a := by
  induction a with
  | nil =>
    intro p b h hl
    simp only [List.length_nil, Nat.le_zero] at hl
    rw [List.eq_nil_of_length_eq_zero hl]
    exact isPre_nil _
  | cons x a ih =>
    intro p b h hl
    cases p with
    | nil => exact isPre_nil _
    | cons y p2 =>
      rcases isPre_cons_cases (y :: p2) x (a ++ b) h with hnil | ⟨p3, heq, hp3⟩
      · exact absurd hnil (by simp)
      · simp only [List.cons.injEq] at heq
        obtain ⟨hy, hp⟩ := heq
        subst hy
        subst hp
        obtain ⟨t, ht⟩ := ih p2 b hp3 (by simp only [List.length_cons] at hl; omega)
        exact ⟨t, by simp [List.cons_append, ht]⟩

theorem takeBs_short (k : Nat) (bs : List Nat) (h : bs.length < k) :
    takeBs k bs = .error .incomplete := by
  unfold takeBs
  rw [if_neg (by omega)]

/-! ### Truncated encodings parse as `incomplete` -/

theorem parseVal_nil_buf (fuel : Nat) : parseVal fuel [] = .error .incomplete := by
  cases fuel <;> rfl

theorem strictPre_single (fuel : Nat) (b : Nat) (p : List Nat)
    (hpre : isPre p [b]) (hne : p ≠ [b]) :
    parseVal (fuel + 1) p = .error .incomplete := by
  rcases isPre_cons_cases p b [] hpre with rfl | ⟨p2, rfl, hp2⟩
  · exact parseVal_nil_buf _
  · exact absurd (by rw [isPre_nil_right p2 hp2]) hne

theorem parseInc_cb (fuel : Nat) (p : List Nat) (h : p.length < 8) :
    parseVal (fuel + 1) (0xcb :: p) = .error .incomplete := by
  simp only [parseVal]
  norm_num
  simp [takeBs_short _ _ h]

theorem parseInc_cc (fuel : Nat) (p : List Nat) (h : p.length < 1) :
    parseVal (fuel + 1) (0xcc :: p) = .error .incomplete := by
  simp only [parseVal]
  norm_num
  simp [takeBs_short _ _ h]

theorem parseInc_cd (fuel : Nat) (p : List Nat) (h : p.length < 2) :
    parseVal (fuel + 1) (0xcd :: p) = .error .incomplete := by
  simp only [parseVal]
  norm_num
  simp [takeBs_short _ _ h]

theorem parseInc_ce (fuel : Nat) (p : List Nat) (h : p.length < 4) :
    parseVal (fuel + 1) (0xce :: p) = .error .incomplete := by
  simp only [parseVal]
  norm_num
  simp [takeBs_short _ _ h]

theorem parseInc_cf (fuel : Nat) (p : List Nat) (h : p.length < 8) :
    parseVal (fuel + 1) (0xcf :: p) = .error .incomplete := by
  simp only [parseVal]
  norm_num
  simp [takeBs_short _ _ h]

theorem parseInc_d0 (fuel : Nat) (p : List Nat) (h : p.length < 1) :
    parseVal (fuel + 1) (0xd0 :: p) = .error .incomplete := by
  simp only [parseVal]
  norm_num
  simp [takeBs_short _ _ h]

theorem parseInc_d1 (fuel : Nat) (p : List Nat) (h : p.length < 2) :
    parseVal (fuel + 1) (0xd1 :: p) = .error .incomplete := by
  simp only [parseVal]
  norm_num
  simp [takeBs_short _ _ h]

theorem parseInc_d2 (fuel : Nat) (p : List Nat) (h : p.length < 4) :
    parseVal (fuel + 1) (0xd2 :: p) = .error .incomplete := by
  simp only [parseVal]
  norm_num
  simp [takeBs_short _ _ h]

theorem parseInc_d3 (fuel : Nat) (p : List Nat) (h : p.length < 8) :
    parseVal (fuel + 1) (0xd3 :: p) = .error .incomplete := by
  simp only [parseVal]
  norm_num
  simp [takeBs_short _ _ h]

theorem parseInc1_c4 (fuel : Nat) (p : List Nat) (h : p.length < 1) :
    parseVal (fuel + 1) (0xc4 :: p) = .error .incomplete := by
  simp only [parseVal]
  norm_num
  simp [takeBs_short _ _ h]

theorem parseInc1_c5 (fuel : Nat) (p : List Nat) (h : p.length < 2) :
    parseVal (fuel + 1) (0xc5 :: p) = .error .incomplete := by
  simp only [parseVal]
  norm_num
  simp [takeBs_short _ _ h]

theorem parseInc1_c6 (fuel : Nat) (p : List Nat) (h : p.length < 4) :
    parseVal (fuel + 1) (0xc6 :: p) = .error .incomplete := by
  simp only [parseVal]
  norm_num
  simp [takeBs_short _ _ h]

theorem parseInc1_d9 (fuel : Nat) (p : List Nat) (h : p.length < 1) :
    parseVal (fuel + 1) (0xd9 :: p) = .error .incomplete := by
  simp only [parseVal]
  norm_num
  simp [takeBs_short _ _ h]

theorem parseInc1_da (fuel : Nat) (p : List Nat) (h : p.length < 2) :
    parseVal (fuel + 1) (0xda :: p) = .error .incomplete := by
  simp only [parseVal]
  norm_num
  simp [takeBs_short _ _ h]

theorem parseInc1_db (fuel : Nat) (p : List Nat) (h : p.length < 4) :
    parseVal (fuel + 1) (0xdb :: p) = .error .incomplete := by
  simp only [parseVal]
  norm_num
  simp [takeBs_short _ _ h]

theorem parseInc1_dc (fuel : Nat) (p : List Nat) (h : p.length < 2) :
    parseVal (fuel + 1) (0xdc :: p) = .error .incomplete := by
  simp only [parseVal]
  norm_num
  simp [takeBs_short _ _ h]

theorem parseInc1_dd (fuel : Nat) (p : List Nat) (h : p.length < 4) :
    parseVal (fuel + 1) (0xdd :: p) = .error .incomplete := by
  simp only [parseVal]
  norm_num
  simp [takeBs_short _ _ h]

theorem parseInc1_de (fuel : Nat) (p : List Nat) (h : p.length < 2) :
    parseVal (fuel + 1) (0xde :: p) = .error .incomplete := by
  simp only [parseVal]
  norm_num
  simp [takeBs_short _ _ h]

theorem parseInc1_df (fuel : Nat) (p : List Nat) (h : p.length < 4) :
    parseVal (fuel + 1) (0xdf :: p) = .error .incomplete := by
  simp only [parseVal]
  norm_num
  simp [takeBs_short _ _ h]

theorem parseInc2_c4 (fuel L : Nat) (p2 : List Nat) (h : p2.length < L) (hL : L < 256) :
    parseVal (fuel + 1) (0xc4 :: L :: p2) = .error .incomplete := by
  have ht1 : takeBs 1 (L :: p2) = .ok ([L], p2) := by
    simpa using takeBs_exact [L] p2 1 rfl
  simp only [parseVal]
  norm_num
  simp [ht1, beVal, takeBs_short _ _ h]

theorem parseInc2_c5 (fuel L : Nat) (p2 : List Nat) (h : p2.length < L) (hL : L < 65536) :
    parseVal (fuel + 1) (0xc5 :: (beBytes 2 L ++ p2)) = .error .incomplete := by
  have ht : takeBs 2 (beBytes 2 L ++ p2) = .ok (beBytes 2 L, p2) :=
    takeBs_exact _ _ 2 (length_beBytes 2 L)
  simp only [parseVal]
  norm_num
  simp [ht, beVal_beBytes 2 L (by norm_num; omega), takeBs_short _ _ h]

theorem parseInc2_c6 (fuel L : Nat) (p2 : List Nat) (h : p2.length < L) (hL : L < 4294967296) :
    parseVal (fuel + 1) (0xc6 :: (beBytes 4 L ++ p2)) = .error .incomplete := by
  have ht : takeBs 4 (beBytes 4 L ++ p2) = .ok (beBytes 4 L, p2) :=
    takeBs_exact _ _ 4 (length_beBytes 4 L)
  simp only [parseVal]
  norm_num
  simp [ht, beVal_beBytes 4 L (by norm_num; omega), takeBs_short _ _ h]

theorem parseInc2_d9 (fuel L : Nat) (p2 : List Nat) (h : p2.length < L) (hL : L < 256) :
    parseVal (fuel + 1) (0xd9 :: L :: p2) = .error .incomplete := by
  have ht1 : takeBs 1 (L :: p2) = .ok ([L], p2) := by
    simpa using takeBs_exact [L] p2 1 rfl
  simp only [parseVal]
  norm_num
  simp [ht1, beVal, takeBs_short _ _ h]

theorem parseInc2_da (fuel L : Nat) (p2 : List Nat) (h : p2.length < L) (hL : L < 65536) :
    parseVal (fuel + 1) (0xda :: (beBytes 2 L ++ p2)) = .error .incomplete := by
  have ht : takeBs 2 (beBytes 2 L ++ p2) = .ok (beBytes 2 L, p2) :=
    takeBs_exact _ _ 2 (length_beBytes 2 L)
  simp only [parseVal]
  norm_num
  simp [ht, beVal_beBytes 2 L (by norm_num; omega), takeBs_short _ _ h]

theorem parseInc2_db (fuel L : Nat) (p2 : List Nat) (h : p2.length < L) (hL : L < 4294967296) :
    parseVal (fuel + 1) (0xdb :: (beBytes 4 L ++ p2)) = .error .incomplete := by
  have ht : takeBs 4 (beBytes 4 L ++ p2) = .ok (beBytes 4 L, p2) :=
    takeBs_exact _ _ 4 (length_beBytes 4 L)
  simp only [parseVal]
  norm_num
  simp [ht, beVal_beBytes 4 L (by norm_num; omega), takeBs_short _ _ h]

theorem parseInc_fixstr (fuel L : Nat) (p2 : List Nat) (hL : L < 32) (h : p2.length < L) :
    parseVal (fuel + 1) ((0xa0 + L) :: p2) = .error .incomplete := by
  simp only [parseVal]
  rw [if_neg (by omega), if_neg (by omega), if_neg (by omega), if_pos (by omega)]
  have he : 0xa0 + L - 0xa0 = L := by omega
  rw [he]
  simp [takeBs_short _ _ h]

theorem strictPre_arrHeader (fuel n : Nat) (p : List Nat)
    (hpre : isPre p (arrHeader n)) (hne : p ≠ arrHeader n) :
    parseVal (fuel + 1) p = .error .incomplete := by
  revert hpre hne
  unfold arrHeader
  repeat' split
  all_goals intro hpre hne
  · exact strictPre_single fuel _ p hpre hne
  · rcases isPre_cons_cases p 0xdc _ hpre with rfl | ⟨p2, rfl, hp2⟩
    · exact parseVal_nil_buf _
    · have hlt : p2.length < 2 := by
        have := isPre_length_lt p2 _ hp2 (fun hh => hne (by rw [hh]))
        simpa [length_beBytes] using this
      exact parseInc1_dc fuel p2 hlt
  · rcases isPre_cons_cases p 0xdd _ hpre with rfl | ⟨p2, rfl, hp2⟩
    · exact parseVal_nil_buf _
    · have hlt : p2.length < 4 := by
        have := isPre_length_lt p2 _ hp2 (fun hh => hne (by rw [hh]))
        simpa [length_beBytes] using this
      exact parseInc1_dd fuel p2 hlt

theorem strictPre_mapHeader (fuel n : Nat) (p : List Nat)
    (hpre : isPre p (mapHeader n)) (hne : p ≠ mapHeader n) :
    parseVal (fuel + 1) p = .error .incomplete := by
  revert hpre hne
  unfold mapHeader
  repeat' split
  all_goals intro hpre hne
  · exact strictPre_single fuel _ p hpre hne
  · rcases isPre_cons_cases p 0xde _ hpre with rfl | ⟨p2, rfl, hp2⟩
    · exact parseVal_nil_buf _
    · have hlt : p2.length < 2 := by
        have := isPre_length_lt p2 _ hp2 (fun hh => hne (by rw [hh]))
        simpa [length_beBytes] using this
      exact parseInc1_de fuel p2 hlt
  · rcases isPre_cons_cases p 0xdf _ hpre with rfl | ⟨p2, rfl, hp2⟩
    · exact parseVal_nil_buf _
    · have hlt : p2.length < 4 := by
        have := isPre_length_lt p2 _ hp2 (fun hh => hne (by rw [hh]))
        simpa [length_beBytes] using this
      exact parseInc1_df fuel p2 hlt

theorem strictPre_encInt (fuel : Nat) (i : Int) (p : List Nat)
    (hpre : isPre p (encInt i)) (hne : p ≠ encInt i) :
    parseVal (fuel + 1) p = .error .incomplete := by
  revert hpre hne
  unfold encInt
  repeat' split
  all_goals intro hpre hne
  · exact strictPre_single fuel _ p hpre hne
  · rcases isPre_cons_cases p 0xcc _ hpre with rfl | ⟨p2, rfl, hp2⟩
    · exact parseVal_nil_buf _
    · rcases isPre_cons_cases p2 _ [] hp2 with rfl | ⟨p3, rfl, hp3⟩
      · exact parseInc_cc fuel [] (by simp)
      · exact absurd (by rw [isPre_nil_right p3 hp3]) hne
  · rcases isPre_cons_cases p 0xcd _ hpre with rfl | ⟨p2, rfl, hp2⟩
    · exact parseVal_nil_buf _
    · have hlt : p2.length < 2 := by
        have := isPre_length_lt p2 _ hp2 (fun hh => hne (by rw [hh]))
        simpa [length_beBytes] using this
      exact parseInc_cd fuel p2 hlt
  · rcases isPre_cons_cases p 0xce _ hpre with rfl | ⟨p2, rfl, hp2⟩
    · exact parseVal_nil_buf _
    · have hlt : p2.length < 4 := by
        have := isPre_length_lt p2 _ hp2 (fun hh => hne (by rw [hh]))
        simpa [length_beBytes] using this
      exact parseInc_ce fuel p2 hlt
  · rcases isPre_cons_cases p 0xcf _ hpre with rfl | ⟨p2, rfl, hp2⟩
    · exact parseVal_nil_buf _
    · have hlt : p2.length < 8 := by
        have := isPre_length_lt p2 _ hp2 (fun hh => hne (by rw [hh]))
        simpa [length_beBytes] using this
      exact parseInc_cf fuel p2 hlt
  · exact strictPre_single fuel _ p hpre hne
  · rcases isPre_cons_cases p 0xd0 _ hpre with rfl | ⟨p2, rfl, hp2⟩
    · exact parseVal_nil_buf _
    · rcases isPre_cons_cases p2 _ [] hp2 with rfl | ⟨p3, rfl, hp3⟩
      · exact parseInc_d0 fuel [] (by simp)
      · exact absurd (by rw [isPre_nil_right p3 hp3]) hne
  · rcases isPre_cons_cases p 0xd1 _ hpre with rfl | ⟨p2, rfl, hp2⟩
    · exact parseVal_nil_buf _
    · have hlt : p2.length < 2 := by
        have := isPre_length_lt p2 _ hp2 (fun hh => hne (by rw [hh]))
        simpa [length_beBytes] using this
      exact parseInc_d1 fuel p2 hlt
  · rcases isPre_cons_cases p 0xd2 _ hpre with rfl | ⟨p2, rfl, hp2⟩
    · exact parseVal_nil_buf _
    · have hlt : p2.length < 4 := by
        have := isPre_length_lt p2 _ hp2 (fun hh => hne (by rw [hh]))
        simpa [length_beBytes] using this
      exact parseInc_d2 fuel p2 hlt
  · rcases isPre_cons_cases p 0xd3 _ hpre with rfl | ⟨p2, rfl, hp2⟩
    · exact parseVal_nil_buf _
    · have hlt : p2.length < 8 := by
        have := isPre_length_lt p2 _ hp2 (fun hh => hne (by rw [hh]))
        simpa [length_beBytes] using this
      exact parseInc_d3 fuel p2 hlt

theorem strictPre_str (fuel : Nat) (s p : List Nat)
    (hval : s.length < 4294967296)
    (hpre : isPre p (strHeader s.length ++ s)) (hne : p ≠ strHeader s.length ++ s) :
    parseVal (fuel + 1) p = .error .incomplete := by
  revert hpre hne
  unfold strHeader
  repeat' split
  all_goals intro hpre hne
  · rename_i hL
    rw [List.singleton_append] at hpre hne
    rcases isPre_cons_cases p _ s hpre with rfl | ⟨p2, rfl, hp2⟩
    · exact parseVal_nil_buf _
    · have hlt : p2.length < s.length :=
        isPre_length_lt p2 s hp2 (fun hh => hne (by rw [hh]))
      exact parseInc_fixstr fuel s.length p2 hL hlt
  · rename_i hL1 hL2
    rw [List.cons_append, List.singleton_append] at hpre hne
    rcases isPre_cons_cases p _ _ hpre with rfl | ⟨p2, rfl, hp2⟩
    · exact parseVal_nil_buf _
    · rcases isPre_cons_cases p2 _ s hp2 with rfl | ⟨p3, rfl, hp3⟩
      · exact parseInc1_d9 fuel [] (by simp)
      · have hlt : p3.length < s.length :=
          isPre_length_lt p3 s hp3 (fun hh => hne (by rw [hh]))
        exact parseInc2_d9 fuel s.length p3 hlt hL2
  · rename_i hL1 hL2 hL3
    rw [List.cons_append] at hpre hne
    rcases isPre_cons_cases p _ _ hpre with rfl | ⟨p2, rfl, hp2⟩
    · exact parseVal_nil_buf _
    · by_cases hl2 : p2.length < 2
      · exact parseInc1_da fuel p2 hl2
      · obtain ⟨p3, rfl, hp3⟩ := isPre_split_of_length (beBytes 2 s.length) p2 s hp2
          (by rw [length_beBytes]; omega)
        have hlt : p3.length < s.length :=
          isPre_length_lt p3 s hp3 (fun hh => hne (by rw [hh]))
        exact parseInc2_da fuel s.length p3 hlt hL3
  · rename_i hL1 hL2 hL3
    rw [List.cons_append] at hpre hne
    rcases isPre_cons_cases p _ _ hpre with rfl | ⟨p2, rfl, hp2⟩
    · exact parseVal_nil_buf _
    · by_cases hl2 : p2.length < 4
      · exact parseInc1_db fuel p2 hl2
      · obtain ⟨p3, rfl, hp3⟩ := isPre_split_of_length (beBytes 4 s.length) p2 s hp2
          (by rw [length_beBytes]; omega)
        have hlt : p3.length < s.length :=
          isPre_length_lt p3 s hp3 (fun hh => hne (by rw [hh]))
        exact parseInc2_db fuel s.length p3 hlt hval

theorem strictPre_bin (fuel : Nat) (s p : List Nat)
    (hval : s.length < 4294967296)
    (hpre : isPre p (binHeader s.length ++ s)) (hne : p ≠ binHeader s.length ++ s) :
    parseVal (fuel + 1) p = .error .incomplete := by
  revert hpre hne
  unfold binHeader
  repeat' split
  all_goals intro hpre hne
  · rename_i hL
    rw [List.cons_append, List.singleton_append] at hpre hne
    rcases isPre_cons_cases p _ _ hpre with rfl | ⟨p2, rfl, hp2⟩
    · exact parseVal_nil_buf _
    · rcases isPre_cons_cases p2 _ s hp2 with rfl | ⟨p3, rfl, hp3⟩
      · exact parseInc1_c4 fuel [] (by simp)
      · have hlt : p3.length < s.length :=
          isPre_length_lt p3 s hp3 (fun hh => hne (by rw [hh]))
        exact parseInc2_c4 fuel s.length p3 hlt hL
  · rename_i hL1 hL2
    rw [List.cons_append] at hpre hne
    rcases isPre_cons_cases p _ _ hpre with rfl | ⟨p2, rfl, hp2⟩
    · exact parseVal_nil_buf _
    · by_cases hl2 : p2.length < 2
      · exact parseInc1_c5 fuel p2 hl2
      · obtain ⟨p3, rfl, hp3⟩ := isPre_split_of_length (beBytes 2 s.length) p2 s hp2
          (by rw [length_beBytes]; omega)
        have hlt : p3.length < s.length :=
          isPre_length_lt p3 s hp3 (fun hh => hne (by rw [hh]))
        exact parseInc2_c5 fuel s.length p3 hlt hL2
  · rename_i hL1 hL2
    rw [List.cons_append] at hpre hne
    rcases isPre_cons_cases p _ _ hpre with rfl | ⟨p2, rfl, hp2⟩
    · exact parseVal_nil_buf _
    · by_cases hl2 : p2.length < 4
      · exact parseInc1_c6 fuel p2 hl2
      · obtain ⟨p3, rfl, hp3⟩ := isPre_split_of_length (beBytes 4 s.length) p2 s hp2
          (by rw [length_beBytes]; omega)
        have hlt : p3.length < s.length :=
          isPre_length_lt p3 s hp3 (fun hh => hne (by rw [hh]))
        exact parseInc2_c6 fuel s.length p3 hlt hval

/-- A strict prefix of a canonical encoding always parses as `incomplete`,
never as a value and never as `malformed`: the msgpack framing is
self-delimiting, so a partially received value just waits for more bytes. -/
theorem parse_strictPre (fuel : Nat) :
    (∀ v p, validVal v = true → isPre p (encodeVal v) → p ≠ encodeVal v →
       parseVal fuel p = .error .incomplete) ∧
    (∀ vs p, validList vs = true → isPre p (encodeList vs) → p ≠ encodeList vs →
       parseArr fuel vs.length p = .error .incomplete) ∧
    (∀ kvs p, validKVs kvs = true → isPre p (encodeKVs kvs) → p ≠ encodeKVs kvs →
       parseMap fuel kvs.length p = .error .incomplete) := by
  induction fuel with
  | zero =>
    refine ⟨?_, ?_, ?_⟩
    · intro v p _ _ _
      rfl
    · intro vs p _ _ _
      rfl
    · intro kvs p _ _ _
      rfl
  | succ fuel ih =>
    obtain ⟨ihV, ihA, ihM⟩ := ih
    refine ⟨?_, ?_, ?_⟩
    · intro v p hval hpre hne
      cases v with
      | nil =>
        simp only [encodeVal] at hpre hne
        exact strictPre_single fuel 0xc0 p hpre hne
      | bool b =>
        cases b with
        | false =>
          simp only [encodeVal] at hpre hne
          exact strictPre_single fuel 0xc2 p hpre hne
        | true =>
          simp only [encodeVal] at hpre hne
          exact strictPre_single fuel 0xc3 p hpre hne
      | int i =>
        simp only [encodeVal] at hpre hne
        exact strictPre_encInt fuel i p hpre hne
      | float b =>
        simp only [encodeVal] at hpre hne
        rcases isPre_cons_cases p 0xcb _ hpre with rfl | ⟨p2, rfl, hp2⟩
        · exact parseVal_nil_buf _
        · have hlt : p2.length < 8 := by
            have := isPre_length_lt p2 _ hp2 (fun hh => hne (by rw [hh]))
            simpa [length_beBytes] using this
          exact parseInc_cb fuel p2 hlt
      | str s =>
        simp only [validVal, Bool.and_eq_true, decide_eq_true_eq] at hval
        simp only [encodeVal] at hpre hne
        exact strictPre_str fuel s p hval.1 hpre hne
      | bin s =>
        simp only [validVal, Bool.and_eq_true, decide_eq_true_eq] at hval
        simp only [encodeVal] at hpre hne
        exact strictPre_bin fuel s p hval.1 hpre hne
      | arr vs =>
        simp only [validVal, Bool.and_eq_true, decide_eq_true_eq] at hval
        simp only [encodeVal] at hpre hne
        by_cases hl : p.length < (arrHeader vs.length).length
        · have hppre : isPre p (arrHeader vs.length) :=
            isPre_append_short _ p _ hpre (by omega)
          have hpne : p ≠ arrHeader vs.length := by
            intro hh
            rw [hh] at hl
            omega
          exact strictPre_arrHeader fuel vs.length p hppre hpne
        · push_neg at hl
          obtain ⟨q, rfl, hq⟩ :=
            isPre_split_of_length (arrHeader vs.length) p _ hpre hl
          have hqne : q ≠ encodeList vs := fun hh => hne (by rw [hh])
          rw [parseVal_arrHeader fuel vs.length q hval.1]
          rw [ihA vs q hval.2 hq hqne]
          simp
      | map kvs =>
        simp only [validVal, Bool.and_eq_true, decide_eq_true_eq] at hval
        simp only [encodeVal] at hpre hne
        by_cases hl : p.length < (mapHeader kvs.length).length
        · have hppre : isPre p (mapHeader kvs.length) :=
            isPre_append_short _ p _ hpre (by omega)
          have hpne : p ≠ mapHeader kvs.length := by
            intro hh
            rw [hh] at hl
            omega
          exact strictPre_mapHeader fuel kvs.length p hppre hpne
        · push_neg at hl
          obtain ⟨q, rfl, hq⟩ :=
            isPre_split_of_length (mapHeader kvs.length) p _ hpre hl
          have hqne : q ≠ encodeKVs kvs := fun hh => hne (by rw [hh])
          rw [parseVal_mapHeader fuel kvs.length q hval.1]
          rw [ihM kvs q hval.2 hq hqne]
          simp
    · intro vs p hval hpre hne
      cases vs with
      | nil =>
        simp only [encodeList] at hpre hne
        exact absurd (isPre_nil_right p hpre) hne
      | cons v vs =>
        simp only [validList, Bool.and_eq_true] at hval
        simp only [encodeList] at hpre hne
        simp only [List.length_cons, parseArr]
        by_cases hl : (encodeVal v).length ≤ p.length
        · obtain ⟨q, rfl, hq⟩ := isPre_split_of_length (encodeVal v) p _ hpre hl
          have hqne : q ≠ encodeList vs := fun hh => hne (by rw [hh])
          rcases (parse_encode_weak fuel).1 v q hval.1 with hok | hinc
          · rw [hok]
            simp only [exBind_ok]
            rw [ihA vs q hval.2 hq hqne]
            simp
          · rw [hinc]
            simp
        · push_neg at hl
          have hppre : isPre p (encodeVal v) := isPre_append_short _ p _ hpre (by omega)
          have hpne : p ≠ encodeVal v := by
            intro hh
            rw [hh] at hl
            omega
          rw [ihV v p hval.1 hppre hpne]
          simp
    · intro kvs p hval hpre hne
      cases kvs with
      | nil =>
        simp only [encodeKVs] at hpre hne
        exact absurd (isPre_nil_right p hpre) hne
      | cons kv kvs =>
        cases kv with
        | mk k v =>
          simp only [validKVs, Bool.and_eq_true] at hval
          simp only [encodeKVs] at hpre hne
          rw [List.append_assoc] at hpre hne
          simp only [List.length_cons, parseMap]
          by_cases hl : (encodeVal k).length ≤ p.length
          · obtain ⟨q, rfl, hq⟩ := isPre_split_of_length (encodeVal k) p _ hpre hl
            have hqne : q ≠ encodeVal v ++ encodeKVs kvs := fun hh => hne (by rw [hh])
            rcases (parse_encode_weak fuel).1 k q hval.1.1 with hok | hinc
            · rw [hok]
              simp only [exBind_ok]
              by_cases hl2 : (encodeVal v).length ≤ q.length
              · obtain ⟨q2, rfl, hq2⟩ := isPre_split_of_length (encodeVal v) q _ hq hl2
                have hq2ne : q2 ≠ encodeKVs kvs := fun hh => hqne (by rw [hh])
                rcases (parse_encode_weak fuel).1 v q2 hval.1.2 with hok2 | hinc2
                · rw [hok2]
                  simp only [exBind_ok]
                  rw [ihM kvs q2 hval.2 hq2 hq2ne]
                  simp
                · rw [hinc2]
                  simp
              · push_neg at hl2
                have hppre : isPre q (encodeVal v) :=
                  isPre_append_short _ q _ hq (by omega)
                have hpne : q ≠ encodeVal v := by
                  intro hh
                  rw [hh] at hl2
                  omega
                rw [ihV v q hval.1.2 hppre hpne]
                simp
            · rw [hinc]
              simp
          · push_neg at hl
            have hppre : isPre p (encodeVal k) := isPre_append_short _ p _ hpre (by omega)
            have hpne : p ≠ encodeVal k := by
              intro hh
              rw [hh] at hl
              omega
            rw [ihV k p hval.1.1 hppre hpne]
            simp

theorem arrHeader_len_pos (n : Nat) : 1 ≤ (arrHeader n).length := by
  unfold arrHeader
  repeat' split
  all_goals simp [length_beBytes]

theorem mapHeader_len_pos (n : Nat) : 1 ≤ (mapHeader n).length := by
  unfold mapHeader
  repeat' split
  all_goals simp [length_beBytes]

mutual
/-- The parser fuel needed for a value is within three times its encoded
length, so `drain`'s fuel choice of `3 * buf.length + 1` always suffices. -/
theorem nsize_le (v : Val) : nsize v + 1 ≤ 3 * (encodeVal v).length := by
  cases v with
  | nil => simp [nsize, encodeVal]
  | bool b => cases b <;> simp [nsize, encodeVal]
  | int i =>
    have hp := List.length_pos.mpr (encInt_ne_nil i)
    simp only [nsize, encodeVal]
    omega
  | float b =>
    simp [nsize, encodeVal, length_beBytes]
  | str s =>
    have hp := length_encodeVal_pos (.str s)
    simp only [nsize]
    omega
  | bin s =>
    have hp := length_encodeVal_pos (.bin s)
    simp only [nsize]
    omega
  | arr vs =>
    have h1 := nsizeL_le vs
    have hh := arrHeader_len_pos vs.length
    simp only [nsize, encodeVal, List.length_append]
    omega
  | map kvs =>
    have h1 := nsizeKV_le kvs
    have hh := mapHeader_len_pos kvs.length
    simp only [nsize, encodeVal, List.length_append]
    omega
theorem nsizeL_le (vs : List Val) : nsizeL vs ≤ 3 * (encodeList vs).length + 1 := by
  cases vs with
  | nil => simp [nsizeL, encodeList]
  | cons v vs =>
    have h1 := nsize_le v
    have h2 := nsizeL_le vs
    simp only [nsizeL, encodeList, List.length_append]
    omega
theorem nsizeKV_le (kvs : List (Val × Val)) :
    nsizeKV kvs ≤ 3 * (encodeKVs kvs).length + 1 := by
  cases kvs with
  | nil => simp [nsizeKV, encodeKVs]
  | cons kv kvs =>
    cases kv with
    | mk k v =>
      have h1 := nsize_le k
      have h2 := nsize_le v
      have h3 := nsizeKV_le kvs
      simp only [nsizeKV, encodeKVs, List.length_append]
      omega
end

/-- The residue a drain pass may leave in the unpacker's buffer, relative to
the records still outstanding: nothing if the stream is complete, otherwise a
strict prefix of the next record's encoding. -/
def strictRem (rem : List Nat) (rs : List Val) : Prop :=
  match rs with
  | [] => rem = []
  | r :: _ => isPre rem (encodeVal r) ∧ rem ≠ encodeVal r

theorem drainGo_nil (K : Nat) : drainGo K [] = ([], []) := by
  cases K with
  | zero => rfl
  | succ K => simp [drainGo, parseVal]

theorem drainGo_stuck (K : Nat) (b : List Nat) (e : PErr)
    (h : parseVal (3 * b.length + 1) b = .error e) : drainGo K b = ([], b) := by
  cases K with
  | zero => rfl
  | succ K => simp [drainGo, h]

theorem validList_iff (r : Val) (rs : List Val) :
    validList (r :: rs) = true ↔ validVal r = true ∧ validList rs = true := by
  simp [validList]

/-- What one drain pass extracts from a buffer that is a prefix of the
encoding of the outstanding records: exactly the records whose encodings are
completely buffered, in order, leaving a strict prefix of the next record's
encoding. -/
theorem drainGo_spec (N : Nat) :
    ∀ (b : List Nat) (K : Nat) (rs : List Val),
      b.length ≤ N → b.length ≤ K → validList rs = true → isPre b (encodeList rs) →
      ∃ done rest, rs = done ++ rest ∧
        (drainGo K b).1 = done ∧
        b = encodeList done ++ (drainGo K b).2 ∧
        strictRem (drainGo K b).2 rest ∧
        validList rest = true := by
  induction N with
  | zero =>
    intro b K rs hbN hbK hval hpre
    have hb : b = [] := List.eq_nil_of_length_eq_zero (by omega)
    subst hb
    rw [drainGo_nil]
    cases rs with
    | nil =>
      exact ⟨[], [], by simp, rfl, by simp [encodeList], by simp [strictRem], by simp [validList]⟩
    | cons r rs' =>
      refine ⟨[], r :: rs', by simp, rfl, by simp [encodeList], ?_, hval⟩
      simp only [strictRem]
      exact ⟨isPre_nil _, fun hh => encodeVal_ne_nil r hh.symm⟩
  | succ N ih =>
    intro b K rs hbN hbK hval hpre
    cases rs with
    | nil =>
      have hb : b = [] := isPre_nil_right b (by simpa [encodeList] using hpre)
      subst hb
      rw [drainGo_nil]
      exact ⟨[], [], by simp, rfl, by simp [encodeList], by simp [strictRem], by simp [validList]⟩
    | cons r rs' =>
      rw [validList_iff] at hval
      simp only [encodeList] at hpre
      by_cases hl : (encodeVal r).length ≤ b.length
      · obtain ⟨b2, rfl, hb2⟩ := isPre_split_of_length (encodeVal r) b _ hpre hl
        have hfuel : nsize r ≤ 3 * (encodeVal r ++ b2).length + 1 := by
          have := nsize_le r
          simp only [List.length_append]
          omega
        have hok : parseVal (3 * (encodeVal r ++ b2).length + 1) (encodeVal r ++ b2) =
            .ok (r, b2) := (parse_encode _).1 r b2 hval.1 hfuel
        cases K with
        | zero =>
          exfalso
          have := length_encodeVal_pos r
          simp only [List.length_append] at hbK
          omega
        | succ K' =>
          have hstep : drainGo (K' + 1) (encodeVal r ++ b2) =
              (r :: (drainGo K' b2).1, (drainGo K' b2).2) := by
            simp only [drainGo, hok]
          rw [hstep]
          have hb2N : b2.length ≤ N := by
            have := length_encodeVal_pos r
            simp only [List.length_append] at hbN
            omega
          have hb2K : b2.length ≤ K' := by
            have := length_encodeVal_pos r
            simp only [List.length_append] at hbK
            omega
          obtain ⟨done', rest', hsplit, hfst, hbuf, hrem, hvalr⟩ :=
            ih b2 K' rs' hb2N hb2K hval.2 hb2
          refine ⟨r :: done', rest', by simp [hsplit], by simp [hfst], ?_, hrem, hvalr⟩
          simp only [encodeList]
          rw [List.append_assoc]
          rw [← hbuf]
      · push_neg at hl
        have hppre : isPre b (encodeVal r) := isPre_append_short _ b _ hpre (by omega)
        have hpne : b ≠ encodeVal r := by
          intro hh
          rw [hh] at hl
          omega
        have hinc : parseVal (3 * b.length + 1) b = .error .incomplete :=
          (parse_strictPre _).1 r b hval.1 hppre hpne
        rw [drainGo_stuck K b .incomplete hinc]
        refine ⟨[], r :: rs', by simp, rfl, by simp [encodeList], ?_, ?_⟩
        · simp only [strictRem]
          exact ⟨hppre, hpne⟩
        · rw [validList_iff]
          exact hval

theorem append_cancel_left_nat (a b c : List Nat) (h : a ++ b = a ++ c) : b = c := by
  induction a with
  | nil => simpa using h
  | cons x a ih =>
    simp only [List.cons_append, List.cons.injEq] at h
    exact ih h.2

/-- Invariant run of the receive pipeline: starting from a buffer that is a
strict partial record, feeding any chunking of the remaining stream emits
exactly the outstanding records in order and ends with an empty buffer. -/
theorem runFeeds_spec (chunks : List (List Nat)) :
    ∀ (buf : List Nat) (rs : List Val),
      validList rs = true → strictRem buf rs → buf ++ chunks.flatten = encodeList rs →
      (runFeeds ⟨buf⟩ chunks).1 = rs ∧ (runFeeds ⟨buf⟩ chunks).2.buf = [] := by
  induction chunks with
  | nil =>
    intro buf rs hval hrem hjoin
    simp only [List.flatten_nil, List.append_nil] at hjoin
    cases rs with
    | nil =>
      simp only [strictRem] at hrem
      subst hrem
      simp [runFeeds]
    | cons r rs' =>
      exfalso
      simp only [strictRem] at hrem
      have h1 := isPre_length_lt buf _ hrem.1 hrem.2
      have h2 := congrArg List.length hjoin
      simp only [encodeList, List.length_append] at h2
      omega
  | cons c cs ih =>
    intro buf rs hval hrem hjoin
    have hpre : isPre (buf ++ c) (encodeList rs) := by
      refine ⟨cs.flatten, ?_⟩
      rw [List.append_assoc]
      simpa [List.flatten] using hjoin
    obtain ⟨done, rest, hsplit, hfst, hbuf, hrem2, hvalr⟩ :=
      drainGo_spec (buf ++ c).length (buf ++ c) (buf ++ c).length rs
        le_rfl le_rfl hval hpre
    have hjoin2 : (drainGo (buf ++ c).length (buf ++ c)).2 ++ cs.flatten = encodeList rest := by
      apply append_cancel_left_nat (encodeList done)
      have hster : encodeList rs = encodeList done ++ encodeList rest := by
        rw [hsplit, encodeList_append]
      have hj3 : (buf ++ c) ++ cs.flatten = encodeList rs := by
        rw [List.append_assoc]
        simpa [List.flatten] using hjoin
      calc encodeList done ++ ((drainGo (buf ++ c).length (buf ++ c)).2 ++ cs.flatten)
          = (encodeList done ++ (drainGo (buf ++ c).length (buf ++ c)).2) ++ cs.flatten := by
            rw [List.append_assoc]
        _ = (buf ++ c) ++ cs.flatten := by rw [← hbuf]
        _ = encodeList rs := hj3
        _ = encodeList done ++ encodeList rest := hster
    obtain ⟨ih1, ih2⟩ := ih (drainGo (buf ++ c).length (buf ++ c)).2 rest hvalr hrem2 hjoin2
    constructor
    · show ((⟨buf⟩ : Unpacker).feedDrain c).1 ++
        (runFeeds ((⟨buf⟩ : Unpacker).feedDrain c).2 cs).1 = rs
      simp only [Unpacker.feedDrain, Unpacker.feed, drain]
      rw [hfst]
      rw [ih1]
      rw [hsplit]
    · show (runFeeds ((⟨buf⟩ : Unpacker).feedDrain c).2 cs).2.buf = []
      simp only [Unpacker.feedDrain, Unpacker.feed, drain]
      exact ih2

/-! ### The SDK model (`src/ros2_sdk/ros2_sdk.py`) -/

/-- Python strings cross the wire as their UTF-8 bytes.  The fixed string
keys of the SDK's records are spelled out as byte lists (all ASCII), one
constant per key used in the source. -/
def keyType : List Nat := [116, 121, 112, 101]  -- "type"

def keyNamePublisher : List Nat := [110, 97, 109, 101, 95, 112, 117, 98, 108, 105, 115, 104, 101, 114]  -- "name_publisher"

def keyPayload : List Nat := [112, 97, 121, 108, 111, 97, 100]  -- "payload"

def keyJointValues : List Nat := [106, 111, 105, 110, 116, 95, 118, 97, 108, 117, 101, 115]  -- "joint_values"

def keyJointTrajPoints : List Nat := [106, 111, 105, 110, 116, 95, 116, 114, 97, 106, 95, 112, 111, 105, 110, 116, 115]  -- "joint_traj_points"

def keyJointNames : List Nat := [106, 111, 105, 110, 116, 95, 110, 97, 109, 101, 115]  -- "joint_names"

def keyPositions : List Nat := [112, 111, 115, 105, 116, 105, 111, 110, 115]  -- "positions"

def keyVelocities : List Nat := [118, 101, 108, 111, 99, 105, 116, 105, 101, 115]  -- "velocities"

def keyAccelerations : List Nat := [97, 99, 99, 101, 108, 101, 114, 97, 116, 105, 111, 110, 115]  -- "accelerations"

def keyEffort : List Nat := [101, 102, 102, 111, 114, 116]  -- "effort"

def keySeconds : List Nat := [115, 101, 99, 111, 110, 100, 115]  -- "seconds"

def keyNanoseconds : List Nat := [110, 97, 110, 111, 115, 101, 99, 111, 110, 100, 115]  -- "nanoseconds"

def keyButtons : List Nat := [98, 117, 116, 116, 111, 110, 115]  -- "buttons"

def keyAxes : List Nat := [97, 120, 101, 115]  -- "axes"

/-- The `TrajPoint` dataclass: positions/velocities/effort (float lists,
kept as bit patterns), the split timestamp, and `accelerations` defaulting
to the empty list. -/
structure TrajPoint where
  positions : List Nat
  velocities : List Nat
  effort : List Nat
  seconds : Int
  nanoseconds : Int
  accelerations : List Nat := []

/-- The per-instance attributes of `ROS2SDK` the lifecycle touches: whether
the ZeroMQ context, the PULL socket, the PUSH socket, the running flag and
the receive thread are set (`True`) or `None`/`False` as in `__init__`. -/
structure SdkState where
  zmqContext : Bool
  zmqSocketRecv : Bool
  zmqSocketSend : Bool
  running : Bool
  recvThread : Bool

/-- The state `__init__` leaves behind: no context, no sockets, not
running, no receive thread. -/
def initState : SdkState :=
  { zmqContext := false, zmqSocketRecv := false, zmqSocketSend := false,
    running := false, recvThread := false }

/-- Externally visible side effects of `connect`/`disconnect` on transport
resources, in program order. -/
inductive Effect : Type where
  | ctxCreate : Effect
  | sockCreate : Effect
  | sockConnect : String → Effect
  | threadStart : Effect
  | closeRecv : Effect
  | closeSend : Effect
  | ctxTerm : Effect
deriving DecidableEq

/-- The `ValueError`s `connect` can raise, one per `raise` site. -/
inductive ConfigError : Type where
  | missingTcpIp : ConfigError
  | missingTcpPorts : ConfigError
  | udsOnWindows : ConfigError
  | missingUdsPaths : ConfigError
  | missingZmqEndpoints : ConfigError
  | unsupportedProtocol : ConfigError
deriving DecidableEq

/-- Which of the three protocol branches of `connect` was taken. -/
inductive Branch : Type where
  | tcp : Branch
  | uds : Branch
  | zmq : Branch
deriving DecidableEq

/-- Successful outcome of `connect`'s validation: the branch taken and the
two ZeroMQ endpoint strings it computed. -/
structure ConnOk : Type where
  branch : Branch
  endpointRecv : String
  endpointSend : String
deriving DecidableEq

/-- Python `str.upper()` for the ASCII protocol names, written structurally
so that it evaluates inside the kernel. -/
def upperAscii (s : String) : String := ⟨s.data.map Char.toUpper⟩

/-- The `params` dict passed to `connect`: a partial map from key to the
string rendering of the supplied value (`params.get(k)`). -/
def Params : Type := String → Option String

/-- `connect("X", {})`: the empty params dict. -/
def emptyParams : Params := fun _ => none

/-- The protocol resolution and parameter validation performed by
`ROS2SDK.connect` before any socket is created: uppercase the protocol
string, branch on it, check the branch's required params, and compute the
two endpoints; anything else raises. -/
def resolveConnect (system protocol : String) (params : Params) :
    Except ConfigError ConnOk :=
  let proto := upperAscii protocol
  if proto = "TCP" then
    match params "ip" with
    | none => .error .missingTcpIp
    | some ip =>
      match params "port_recv", params "port_send" with
      | some pr, some ps =>
        .ok ⟨.tcp, "tcp://" ++ ip ++ ":" ++ pr, "tcp://" ++ ip ++ ":" ++ ps⟩
      | _, _ => .error .missingTcpPorts
  else if proto = "UDS" then
    if system = "Windows" then .error .udsOnWindows
    else
      match params "path_recv", params "path_send" with
      | some a, some b => .ok ⟨.uds, "ipc://" ++ a, "ipc://" ++ b⟩
      | _, _ => .error .missingUdsPaths
  else if proto = "0MQ" then
    match params "endpoint_recv", params "endpoint_send" with
    | some a, some b => .ok ⟨.zmq, a, b⟩
    | _, _ => .error .missingZmqEndpoints
  else .error .unsupportedProtocol

/-- The transport side effects of one `connect` call, in program order: the
ZeroMQ context is created before validation; sockets are created, connected
and the receive thread started only after validation succeeded. -/
def connectEffects (system protocol : String) (params : Params) : List Effect :=
  Effect.ctxCreate ::
    (match resolveConnect system protocol params with
     | .error _ => []
     | .ok c => [.sockCreate, .sockConnect c.endpointRecv,
                 .sockCreate, .sockConnect c.endpointSend, .threadStart])

/-- State update of `connect`: the context attribute is assigned before
validation, the sockets/flag/thread only on success. -/
def connect (system protocol : String) (params : Params) (s : SdkState) :
    SdkState × Except ConfigError Unit :=
  let s1 := { s with zmqContext := true }
  match resolveConnect system protocol params with
  | .error e => (s1, .error e)
  | .ok _ =>
    ({ s1 with zmqSocketRecv := true, zmqSocketSend := true,
               running := true, recvThread := true }, .ok ())

/-- `ROS2SDK.disconnect`: clear the running flag, join the receive thread,
then close each still-set resource exactly once and clear its attribute;
returns the new state together with the close/term effects emitted. -/
def disconnect (s : SdkState) : SdkState × List Effect :=
  let e1 := if s.zmqSocketRecv then [Effect.closeRecv] else []
  let e2 := if s.zmqSocketSend then [Effect.closeSend] else []
  let e3 := if s.zmqContext then [Effect.ctxTerm] else []
  ({ s with running := false, zmqSocketRecv := false,
            zmqSocketSend := false, zmqContext := false },
   e1 ++ e2 ++ e3)

/-- The error `_send_message` raises when no send socket is set
(`RuntimeError("Not connected. Please call connect() first.")`, the spec's
NotConnectedError). -/
inductive SdkError : Type where
  | notConnected : SdkError
deriving DecidableEq

/-- `ROS2SDK._send_message`: serialize the record with msgpack, then hand
the bytes to the PUSH socket — unless the socket is unset, in which case the
call raises and nothing is handed to any transport.  The returned bytes are
exactly what `zmq` would send. -/
def send_message (s : SdkState) (message : Val) : Except SdkError (List Nat) :=
  let data := encodeVal message
  if s.zmqSocketSend then .ok data else .error .notConnected

/-- The record `send_velocity` builds. -/
def velocity_message (vel : List Nat) (name : List Nat) : Val :=
  .map [(Val.str keyType, .int 31),
        (Val.str keyNamePublisher, .str name),
        (Val.str keyPayload, .map [(Val.str keyJointValues, .arr (vel.map Val.float))])]

/-- `ROS2SDK.send_velocity`. -/
def send_velocity (s : SdkState) (vel : List Nat) (name : List Nat) :
    Except SdkError (List Nat) :=
  send_message s (velocity_message vel name)

/-- The record `send_position` builds. -/
def position_message (pos : List Nat) (name : List Nat) : Val :=
  .map [(Val.str keyType, .int 30),
        (Val.str keyNamePublisher, .str name),
        (Val.str keyPayload, .map [(Val.str keyJointValues, .arr (pos.map Val.float))])]

/-- `ROS2SDK.send_position`. -/
def send_position (s : SdkState) (pos : List Nat) (name : List Nat) :
    Except SdkError (List Nat) :=
  send_message s (position_message pos name)

/-- The record `send_effort` builds. -/
def effort_message (eff : List Nat) (name : List Nat) : Val :=
  .map [(Val.str keyType, .int 32),
        (Val.str keyNamePublisher, .str name),
        (Val.str keyPayload, .map [(Val.str keyJointValues, .arr (eff.map Val.float))])]

/-- `ROS2SDK.send_effort`. -/
def send_effort (s : SdkState) (eff : List Nat) (name : List Nat) :
    Except SdkError (List Nat) :=
  send_message s (effort_message eff name)

/-- The `traj_dict` built for one `TrajPoint` inside `send_trajectory`,
with the source's `x if x else []` falsy-to-empty normalization and all six
keys always present in this order. -/
def traj_dict (tp : TrajPoint) : Val :=
  .map [(Val.str keyPositions,
          .arr ((if tp.positions.isEmpty then [] else tp.positions).map Val.float)),
        (Val.str keyVelocities,
          .arr ((if tp.velocities.isEmpty then [] else tp.velocities).map Val.float)),
        (Val.str keyAccelerations,
          .arr ((if tp.accelerations.isEmpty then [] else tp.accelerations).map Val.float)),
        (Val.str keyEffort,
          .arr ((if tp.effort.isEmpty then [] else tp.effort).map Val.float)),
        (Val.str keySeconds, .int tp.seconds),
        (Val.str keyNanoseconds, .int tp.nanoseconds)]

/-- The record `send_trajectory` builds (note: `joint_names` is a required
positional parameter in the source). -/
def trajectory_message (trajPoints : List TrajPoint) (name : List Nat)
    (joint_names : List (List Nat)) : Val :=
  .map [(Val.str keyType, .int 20),
        (Val.str keyNamePublisher, .str name),
        (Val.str keyPayload,
          .map [(Val.str keyJointTrajPoints, .arr (trajPoints.map traj_dict)),
                (Val.str keyJointNames,
                  .arr (joint_names.map Val.str))])]

/-- `ROS2SDK.send_trajectory`. -/
def send_trajectory (s : SdkState) (trajPoints : List TrajPoint) (name : List Nat)
    (joint_names : List (List Nat)) : Except SdkError (List Nat) :=
  send_message s (trajectory_message trajPoints name joint_names)

/-- Python's `TypeError` for a call that omits a required positional
argument. -/
inductive PyCallErr : Type where
  | missingRequiredArgument : PyCallErr
deriving DecidableEq

/-- A Python-level call `send_trajectory(points, name[, joint_names])`.  In
the source, `joint_names` has no default value, so a call omitting it raises
`TypeError` before any record is built; only a call supplying it reaches the
record construction. -/
def trajectory_message_call (trajPoints : List TrajPoint) (name : List Nat)
    (jointNames : Option (List (List Nat))) : Except PyCallErr Val :=
  match jointNames with
  | none => .error .missingRequiredArgument
  | some jn => .ok (trajectory_message trajPoints name jn)

/-- The record `send_joypad` builds. -/
def joypad_message (buttons : List Int) (axes : List Nat) (name : List Nat) : Val :=
  .map [(Val.str keyType, .int 50),
        (Val.str keyNamePublisher, .str name),
        (Val.str keyPayload, .map [(Val.str keyButtons, .arr (buttons.map Val.int)),
                               (Val.str keyAxes, .arr (axes.map Val.float))])]

/-- `ROS2SDK.send_joypad`. -/
def send_joypad (s : SdkState) (buttons : List Int) (axes : List Nat)
    (name : List Nat) : Except SdkError (List Nat) :=
  send_message s (joypad_message buttons axes name)

/-- IEEE-754 binary64 bit pattern of 1.0, the only double equal to the
Python int 1. -/
def float_one : Nat := 4607182418800017408

/-- IEEE-754 binary64 bit pattern of 2.0, the only double equal to the
Python int 2. -/
def float_two : Nat := 4611686018427387904

/-- Python `x == 1` on a decoded msgpack value: true for the int 1, for
`True` (Python bools are ints), and for the float 1.0; false for every
other decoded value, including `None` (an absent key). -/
def pyEqOne : Val → Bool
  | .int i => i == 1
  | .bool b => b
  | .float bts => bts == float_one
  | _ => false

/-- Python `x == 2` on a decoded msgpack value. -/
def pyEqTwo : Val → Bool
  | .int i => i == 2
  | .bool _ => false
  | .float bts => bts == float_two
  | _ => false

/-- `dict.get(key)` on a decoded msgpack map: msgpack builds the Python
dict by inserting entries in wire order, so a duplicated key keeps its last
occurrence; only a `str` key can equal the dispatcher's string literals. -/
def dget (kvs : List (Val × Val)) (key : List Nat) : Option Val :=
  match kvs with
  | [] => none
  | (k, v) :: rest =>
    match dget rest key with
    | some r => some r
    | none =>
      match k with
      | .str s => if s = key then some v else none
      | _ => none

/-- Where `_handle_incoming_message` sends one decoded record: published on
the feedback stream, published on the state stream, silently dropped, or a
`KeyError` from `msg["payload"]` on a routed record with no payload key. -/
inductive Dispatch : Type where
  | feedback : Val → Dispatch
  | state : Val → Dispatch
  | dropped : Dispatch
  | keyError : Dispatch

/-- `ROS2SDK._handle_incoming_message`: `msg.get("type")`, compare against 1
then 2 with Python `==`, publish `msg["payload"]` on the matching Subject,
otherwise ignore the record. -/
def handle_incoming_message (msg : List (Val × Val)) : Dispatch :=
  let t := dget msg keyType
  if (match t with | some v => pyEqOne v | none => false) then
    match dget msg keyPayload with
    | some p => .feedback p
    | none => .keyError
  else if (match t with | some v => pyEqTwo v | none => false) then
    match dget msg keyPayload with
    | some p => .state p
    | none => .keyError
  else .dropped

/-- A well-formed inbound message record as described in the dispatcher's
docstring: a `type` tag, a publisher name, and a payload. -/
def mkRecord (t : Val) (name : List Nat) (payload : Val) : List (Val × Val) :=
  [(Val.str keyType, t), (Val.str keyNamePublisher, .str name),
   (Val.str keyPayload, payload)]

/-! ### Concrete data for the spec scenarios -/

/-- IEEE-754 binary64 bit pattern of 3.0. -/
def float_three : Nat := 4613937818241073152

/-- IEEE-754 binary64 bit pattern of 0.1. -/
def float_pt1 : Nat := 4591870180066957722

/-- UTF-8 bytes of the publisher name "arm1". -/
def arm1 : List Nat := [97, 114, 109, 49]

/-- `params` for `connect("TCP", ...)` with `ip`, `port_recv`, `port_send`
given (values rendered as the strings that reach the endpoint format). -/
def tcpParams (ip pr ps : String) : Params := fun k =>
  if k = "ip" then some ip
  else if k = "port_recv" then some pr
  else if k = "port_send" then some ps
  else none

/-- `params` for `connect("UDS", ...)` with both paths given. -/
def udsParams (a b : String) : Params := fun k =>
  if k = "path_recv" then some a
  else if k = "path_send" then some b
  else none

/-- `params` for `connect("0MQ", ...)` with both endpoints given. -/
def zmqParams (a b : String) : Params := fun k =>
  if k = "endpoint_recv" then some a
  else if k = "endpoint_send" then some b
  else none

theorem if_isEmpty_self (l : List Nat) : (if l.isEmpty then [] else l) = l := by
  cases l <;> simp

/-! ### Claim theorems -/

/-- C1 counterexample: the claim routes `type = 10` to the state stream, but
`_handle_incoming_message` only matches 1 and 2 and silently drops a record
whose type is the integer 10 — it is not published to the state stream. -/
theorem C1_type10_counterexample :
    handle_incoming_message (mkRecord (.int 10) [120] (.map [])) = .dropped ∧
    Dispatch.dropped ≠ Dispatch.state (.map []) := by
  constructor
  · rfl
  · intro h
    cases h

/-- C1 (amended): the dispatcher routes by the `type` field: a record whose
type tag is the integer 1 is published only to the feedback stream, a record
with integer tag 2 only to the state stream, and a record with any other
integer tag — including 10 — is published to neither stream and no error is
raised (the record is silently dropped). -/
theorem C1_dispatch_routing :
    (∀ (name : List Nat) (payload : Val),
       handle_incoming_message (mkRecord (.int 1) name payload) = .feedback payload) ∧
    (∀ (name : List Nat) (payload : Val),
       handle_incoming_message (mkRecord (.int 2) name payload) = .state payload) ∧
    (∀ (t : Int) (name : List Nat) (payload : Val), t ≠ 1 → t ≠ 2 →
       handle_incoming_message (mkRecord (.int t) name payload) = .dropped) := by
  refine ⟨?_, ?_, ?_⟩
  · intro name payload
    rfl
  · intro name payload
    rfl
  · intro t name payload h1 h2
    simp only [handle_incoming_message, mkRecord, dget, keyType, keyPayload,
      keyNamePublisher, pyEqOne, pyEqTwo]
    norm_num
    rw [if_neg h1, if_neg h2]

/-- C1 witness: the amended routing theorem applied at the concrete integer
tag 10. -/
theorem C1_dispatch_routing_witness :
    handle_incoming_message (mkRecord (.int 10) [120] (.map [])) = .dropped :=
  C1_dispatch_routing.2.2 10 [120] (.map []) (by decide) (by decide)

/-- C10: for a dispatched record of type 1 or 2, the value published on the
output stream is exactly the record's `payload` field, never the full
record; and a decoded record with no `type` key at all is silently dropped,
dispatched to neither stream. -/
theorem C10_payload_published :
    (∀ (name : List Nat) (payload : Val),
       handle_incoming_message (mkRecord (.int 1) name payload) = .feedback payload ∧
       handle_incoming_message (mkRecord (.int 2) name payload) = .state payload) ∧
    (∀ msg : List (Val × Val), dget msg keyType = none →
       handle_incoming_message msg = .dropped) := by
  refine ⟨?_, ?_⟩
  · intro name payload
    exact ⟨rfl, rfl⟩
  · intro msg h
    simp [handle_incoming_message, h]

/-- C10 witness: a record carrying only a payload and no `type` key is
dropped. -/
theorem C10_payload_published_witness :
    handle_incoming_message [(Val.str keyPayload, Val.map [])] = .dropped :=
  C10_payload_published.2 [(Val.str keyPayload, Val.map [])] rfl

/-- C3 counterexample: the claim accepts any casing of "ZMQ" for the
message-queue variant, but `connect` compares the uppercased protocol only
against "0MQ", so `connect("ZMQ", ...)` raises the unsupported-protocol
ConfigurationError even with valid message-queue params. -/
theorem C3_zmq_counterexample :
    resolveConnect "Linux" "ZMQ" (zmqParams "ipc:///tmp/a" "ipc:///tmp/b") =
      .error .unsupportedProtocol := rfl

/-- C3 (amended): `connect` resolves the protocol string case-insensitively
to exactly one of the three transport variants: any casing of "TCP" selects
the network variant, any casing of "UDS" (on a non-Windows platform) selects
the filesystem-local variant, and any casing of "0MQ" — but not "ZMQ" —
selects the message-queue variant; every other protocol string fails
immediately with the unsupported-protocol ConfigurationError. -/
theorem C3_protocol_resolution :
    (∀ (proto sys ip pr ps : String), upperAscii proto = "TCP" →
       resolveConnect sys proto (tcpParams ip pr ps) =
         .ok ⟨.tcp, "tcp://" ++ ip ++ ":" ++ pr, "tcp://" ++ ip ++ ":" ++ ps⟩) ∧
    (∀ (proto sys a b : String), upperAscii proto = "UDS" → sys ≠ "Windows" →
       resolveConnect sys proto (udsParams a b) =
         .ok ⟨.uds, "ipc://" ++ a, "ipc://" ++ b⟩) ∧
    (∀ (proto sys a b : String), upperAscii proto = "0MQ" →
       resolveConnect sys proto (zmqParams a b) = .ok ⟨.zmq, a, b⟩) ∧
    (∀ (proto sys : String) (params : Params),
       upperAscii proto ≠ "TCP" → upperAscii proto ≠ "UDS" → upperAscii proto ≠ "0MQ" →
       resolveConnect sys proto params = .error .unsupportedProtocol) := by
  refine ⟨?_, ?_, ?_, ?_⟩
  · intro proto sys ip pr ps hup
    simp [resolveConnect, hup, tcpParams]
  · intro proto sys a b hup hsys
    simp [resolveConnect, hup, udsParams, hsys]
  · intro proto sys a b hup
    simp [resolveConnect, hup, zmqParams]
  · intro proto sys params h1 h2 h3
    simp [resolveConnect, h1, h2, h3]

/-- C3 witness: the resolution theorem applied at mixed-case protocol
strings and concrete parameters. -/
theorem C3_protocol_resolution_witness :
    resolveConnect "Linux" "tcp" (tcpParams "10.0.0.1" "5555" "5556") =
      .ok ⟨.tcp, "tcp://" ++ "10.0.0.1" ++ ":" ++ "5555",
                 "tcp://" ++ "10.0.0.1" ++ ":" ++ "5556"⟩ ∧
    resolveConnect "Linux" "uds" (udsParams "/tmp/r" "/tmp/s") =
      .ok ⟨.uds, "ipc://" ++ "/tmp/r", "ipc://" ++ "/tmp/s"⟩ ∧
    resolveConnect "Linux" "0mq" (zmqParams "inproc://r" "inproc://s") =
      .ok ⟨.zmq, "inproc://r", "inproc://s"⟩ ∧
    resolveConnect "Linux" "FOO" emptyParams = .error .unsupportedProtocol :=
  ⟨C3_protocol_resolution.1 "tcp" "Linux" "10.0.0.1" "5555" "5556" rfl,
   C3_protocol_resolution.2.1 "uds" "Linux" "/tmp/r" "/tmp/s" rfl (by decide),
   C3_protocol_resolution.2.2.1 "0mq" "Linux" "inproc://r" "inproc://s" rfl,
   C3_protocol_resolution.2.2.2 "FOO" "Linux" emptyParams
     (by decide) (by decide) (by decide)⟩

/-- C4: `connect("TCP", {})` fails with a ConfigurationError (missing `ip`)
before any socket is created or connected, and `connect("FOO", params)`
fails with the unsupported-protocol ConfigurationError for every params
mapping, likewise before any socket is created or connected; both failures
are synchronous outcomes of `connect` itself. -/
theorem C4_connect_validation :
    (∀ sys : String,
       resolveConnect sys "TCP" emptyParams = .error .missingTcpIp ∧
       Effect.sockCreate ∉ connectEffects sys "TCP" emptyParams ∧
       (∀ ep : String, Effect.sockConnect ep ∉ connectEffects sys "TCP" emptyParams)) ∧
    (∀ (sys : String) (params : Params),
       resolveConnect sys "FOO" params = .error .unsupportedProtocol ∧
       Effect.sockCreate ∉ connectEffects sys "FOO" params ∧
       (∀ ep : String, Effect.sockConnect ep ∉ connectEffects sys "FOO" params)) := by
  constructor
  · intro sys
    have herr : resolveConnect sys "TCP" emptyParams = .error .missingTcpIp := rfl
    refine ⟨herr, ?_, ?_⟩
    · simp [connectEffects, herr]
    · intro ep
      simp [connectEffects, herr]
  · intro sys params
    have herr : resolveConnect sys "FOO" params = .error .unsupportedProtocol := rfl
    refine ⟨herr, ?_, ?_⟩
    · simp [connectEffects, herr]
    · intro ep
      simp [connectEffects, herr]

/-- C5: every `send_*` operation invoked while no send socket is set — which
holds in the initial state before any successful `connect` and in every
state reached by `disconnect` — fails synchronously with the
NotConnectedError, and (the operation returning an error instead of bytes)
nothing is handed to any transport. -/
theorem C5_send_not_connected :
    (∀ s : SdkState, s.zmqSocketSend = false →
       (∀ vel name, send_velocity s vel name = .error .notConnected) ∧
       (∀ pos name, send_position s pos name = .error .notConnected) ∧
       (∀ eff name, send_effort s eff name = .error .notConnected) ∧
       (∀ pts name jn, send_trajectory s pts name jn = .error .notConnected) ∧
       (∀ btns axes name, send_joypad s btns axes name = .error .notConnected)) ∧
    initState.zmqSocketSend = false ∧
    (∀ s : SdkState, ((disconnect s).1).zmqSocketSend = false) := by
  refine ⟨?_, rfl, ?_⟩
  · intro s h
    refine ⟨?_, ?_, ?_, ?_, ?_⟩
    · intro vel name
      simp [send_velocity, send_message, h]
    · intro pos name
      simp [send_position, send_message, h]
    · intro eff name
      simp [send_effort, send_message, h]
    · intro pts name jn
      simp [send_trajectory, send_message, h]
    · intro btns axes name
      simp [send_joypad, send_message, h]
  · intro s
    rfl

/-- C5 witness: `send_velocity` in the initial state and `send_position`
right after a `disconnect` both raise the NotConnectedError. -/
theorem C5_send_not_connected_witness :
    send_velocity initState [float_one] arm1 = .error .notConnected ∧
    send_position ((disconnect
      { zmqContext := true, zmqSocketRecv := true, zmqSocketSend := true,
        running := true, recvThread := true }).1) [float_one] arm1 =
      .error .notConnected :=
  ⟨(C5_send_not_connected.1 initState rfl).1 [float_one] arm1,
   (C5_send_not_connected.1 _ (C5_send_not_connected.2.2
      { zmqContext := true, zmqSocketRecv := true, zmqSocketSend := true,
        running := true, recvThread := true })).2.1 [float_one] arm1⟩

/-- C6 counterexample: the claim calls sendTrajectory with jointNames
omitted "as it is optional", but in the source `joint_names` is a required
positional parameter with no default, so the call raises a TypeError and
produces no record at all. -/
theorem C6_joint_names_required_counterexample :
    trajectory_message_call
      [{ positions := [float_pt1], velocities := [], effort := [],
         seconds := 5, nanoseconds := 0 }] arm1 none =
      .error .missingRequiredArgument := rfl

/-- C6 (amended): `joint_names` is required, and calling sendTrajectory with
the single point TrajectoryPoint(positions=[0.1], velocities=[], effort=[],
seconds=5, nanoseconds=0), name "arm1" and joint names `[]` produces a
record of type 20 whose payload entry `joint_traj_points[0]` is exactly the
six-key mapping positions=[0.1], velocities=[], accelerations=[],
effort=[], seconds=5, nanoseconds=0; in general every trajectory point is
copied to a payload entry that always carries all six keys, an empty or
defaulted field appearing as an empty sequence rather than an absent key. -/
theorem C6_trajectory_record :
    trajectory_message_call
      [{ positions := [float_pt1], velocities := [], effort := [],
         seconds := 5, nanoseconds := 0 }] arm1 (some []) =
      .ok (.map [(Val.str keyType, .int 20),
                 (Val.str keyNamePublisher, .str arm1),
                 (Val.str keyPayload,
                   .map [(Val.str keyJointTrajPoints,
                           .arr [.map [(Val.str keyPositions, .arr [.float float_pt1]),
                                       (Val.str keyVelocities, .arr []),
                                       (Val.str keyAccelerations, .arr []),
                                       (Val.str keyEffort, .arr []),
                                       (Val.str keySeconds, .int 5),
                                       (Val.str keyNanoseconds, .int 0)]]),
                         (Val.str keyJointNames, .arr [])])]) ∧
    (∀ tp : TrajPoint,
       traj_dict tp =
         .map [(Val.str keyPositions, .arr (tp.positions.map Val.float)),
               (Val.str keyVelocities, .arr (tp.velocities.map Val.float)),
               (Val.str keyAccelerations, .arr (tp.accelerations.map Val.float)),
               (Val.str keyEffort, .arr (tp.effort.map Val.float)),
               (Val.str keySeconds, .int tp.seconds),
               (Val.str keyNanoseconds, .int tp.nanoseconds)]) := by
  constructor
  · rfl
  · intro tp
    have h : ∀ l : List Nat, (if l = [] then [] else l) = l := by
      intro l
      split <;> simp_all
    simp [traj_dict, h]

/-- C7: sendPosition([1.0, 2.0, 3.0], "arm1") builds exactly the record
type=30 / name_publisher="arm1" / payload={joint_values: [1.0, 2.0, 3.0]};
in general sendVelocity, sendPosition and sendEffort build records with
types 31, 30 and 32, the given name, and payload {joint_values: values},
and each hands exactly the msgpack encoding of that record to the
transport when connected. -/
theorem C7_joint_command_records :
    position_message [float_one, float_two, float_three] arm1 =
      .map [(Val.str keyType, .int 30),
            (Val.str keyNamePublisher, .str arm1),
            (Val.str keyPayload,
              .map [(Val.str keyJointValues,
                     .arr [.float float_one, .float float_two, .float float_three])])] ∧
    (∀ (s : SdkState) (vals name : List Nat) (hs : s.zmqSocketSend = true),
       send_velocity s vals name =
         .ok (encodeVal (.map [(Val.str keyType, .int 31),
               (Val.str keyNamePublisher, .str name),
               (Val.str keyPayload,
                 .map [(Val.str keyJointValues, .arr (vals.map Val.float))])])) ∧
       send_position s vals name =
         .ok (encodeVal (.map [(Val.str keyType, .int 30),
               (Val.str keyNamePublisher, .str name),
               (Val.str keyPayload,
                 .map [(Val.str keyJointValues, .arr (vals.map Val.float))])])) ∧
       send_effort s vals name =
         .ok (encodeVal (.map [(Val.str keyType, .int 32),
               (Val.str keyNamePublisher, .str name),
               (Val.str keyPayload,
                 .map [(Val.str keyJointValues, .arr (vals.map Val.float))])]))) := by
  refine ⟨rfl, ?_⟩
  intro s vals name hs
  refine ⟨?_, ?_, ?_⟩
  · simp [send_velocity, send_message, velocity_message, hs]
  · simp [send_position, send_message, position_message, hs]
  · simp [send_effort, send_message, effort_message, hs]

/-- C7 witness: the record equations applied in a connected state with the
scenario's values. -/
theorem C7_joint_command_records_witness :
    send_position
      { zmqContext := true, zmqSocketRecv := true, zmqSocketSend := true,
        running := true, recvThread := true }
      [float_one, float_two, float_three] arm1 =
      .ok (encodeVal (.map [(Val.str keyType, .int 30),
            (Val.str keyNamePublisher, .str arm1),
            (Val.str keyPayload,
              .map [(Val.str keyJointValues,
                .arr [.float float_one, .float float_two, .float float_three])])])) :=
  (C7_joint_command_records.2
    { zmqContext := true, zmqSocketRecv := true, zmqSocketSend := true,
      running := true, recvThread := true }
    [float_one, float_two, float_three] arm1 rfl).2.1

/-- C8: `disconnect` is idempotent: from any state — before any connect,
after a failed connect, or connected — a second consecutive `disconnect`
performs no further resource release (no error, no double-free), and across
the two calls the receive socket, the send socket and the shared context
are each closed/terminated at most once. -/
theorem C8_disconnect_idempotent :
    ∀ s : SdkState,
      (disconnect (disconnect s).1).2 = [] ∧
      ((disconnect s).2 ++ (disconnect (disconnect s).1).2).count Effect.closeRecv ≤ 1 ∧
      ((disconnect s).2 ++ (disconnect (disconnect s).1).2).count Effect.closeSend ≤ 1 ∧
      ((disconnect s).2 ++ (disconnect (disconnect s).1).2).count Effect.ctxTerm ≤ 1 := by
  intro s
  obtain ⟨c, r, sd, ru, th⟩ := s
  cases c <;> cases r <;> cases sd <;>
    simp [disconnect, List.count_cons, List.count_append]

/-- C2: for every sequence of N ≥ 1 packable message records, encoding each
record, concatenating the blobs, and feeding the concatenation to the
incremental decoder in arbitrary chunks of at least one byte — draining
after every feed, as `_recv_loop` does — yields exactly the N records,
structurally equal to the originals, in order, none duplicated or dropped,
with an empty buffer left over; the single-record case at every split of
`encode(R)` is the N = 1 instance. -/
theorem C2_codec_roundtrip :
    ∀ (rs : List Val) (chunks : List (List Nat)),
      rs ≠ [] → validList rs = true → (∀ c ∈ chunks, c ≠ []) →
      chunks.flatten = encodeList rs →
      (runFeeds ⟨[]⟩ chunks).1 = rs ∧ (runFeeds ⟨[]⟩ chunks).2.buf = [] := by
  intro rs chunks hne hval hchunks hjoin
  have hrem : strictRem [] rs := by
    cases rs with
    | nil => exact absurd rfl hne
    | cons r rs' =>
      exact ⟨isPre_nil _, fun hh => encodeVal_ne_nil r hh.symm⟩
  exact runFeeds_spec chunks [] rs hval hrem (by simpa using hjoin)

/-- A representative feedback record for the round-trip witness. -/
def demoRecord1 : Val :=
  .map [(Val.str keyType, .int 1), (Val.str keyNamePublisher, .str [97]),
        (Val.str keyPayload, .map [(Val.str keyJointValues, .arr [.float float_one])])]

/-- A representative state record for the round-trip witness. -/
def demoRecord2 : Val :=
  .map [(Val.str keyType, .int 2), (Val.str keyNamePublisher, .str [98]),
        (Val.str keyPayload, .map [])]

/-- The wire stream of the two demo records, encoded back to back. -/
def demoStream : List Nat := encodeList [demoRecord1, demoRecord2]

/-- A chunking of the demo stream that splits the first record's encoding
mid-value and merges its tail with the second record's bytes. -/
def demoChunks : List (List Nat) :=
  [demoStream.take 7, (demoStream.drop 7).take 40, (demoStream.drop 7).drop 40]

/-- C2 witness: the chunked round-trip theorem applied to two concrete
records split at concrete byte boundaries. -/
theorem C2_codec_roundtrip_witness :
    (runFeeds ⟨[]⟩ demoChunks).1 = [demoRecord1, demoRecord2] ∧
    (runFeeds ⟨[]⟩ demoChunks).2.buf = [] :=
  C2_codec_roundtrip [demoRecord1, demoRecord2] demoChunks
    (List.cons_ne_nil _ _) rfl (by decide) (by decide)
